import Mathlib

/-!
Verification development for the git-larder record store
(`src/git_larder/__init__.py`).

The Python source is shallowly embedded below.  Pure helper functions are
translated directly; the git backend (GitPython / gitdb) is an external
collaborator and is represented by a `Repo` structure exposing exactly the
primitives the source consumes: the head commit, the `iter_commits`
enumeration (newest first), the object database membership test, and the
structured content of the two `git log` text protocols the source parses
(`--follow --name-status` for a path, and `--name-only --diff-filter=D`).
JSON parsing is likewise external: a blob carries the result of
`json.loads` on its bytes (`none` models a `ValueError` on malformed
bytes).  Python exceptions are modelled with `Except`; each uncaught
exception class used by the source has its own constructor.
-/

/-! ### Python string / list semantics helpers -/

/-- Python truthiness of an optional string argument (`if version:`):
`None` and the empty string are falsy. -/
def pyTruthyStr : Option String → Bool
  | none => false
  | some s => s != ""

/-- Python truthiness of an optional integer argument (`if retrieve_max:`):
`None` and `0` are falsy. -/
def pyTruthyInt : Option Int → Bool
  | none => false
  | some i => i != 0

/-- Python slicing `l[:m]` for an integer bound `m` (negative bounds count
from the end, clamped at zero). -/
def pySliceUpTo (m : Int) (l : List α) : List α :=
  if 0 ≤ m then l.take m.toNat else l.take (l.length - (-m).toNat)

/-- The whitespace set stripped by Python `str.strip()`. -/
def pyIsSpace (c : Char) : Bool :=
  c.toNat == 32 || c.toNat == 9 || c.toNat == 10 || c.toNat == 13 || c.toNat == 11 ||
    c.toNat == 12

/-- Python `s.strip()`: remove leading and trailing whitespace. -/
def pyStrip (s : String) : String :=
  ⟨((s.data.dropWhile pyIsSpace).reverse.dropWhile pyIsSpace).reverse⟩

/-- Character-list splitter used to model Python `s.split(sep)`. -/
def splitOnCharAux (sep : Char) : List Char → List Char → List String
  | [], acc => [⟨acc.reverse⟩]
  | c :: rest, acc =>
      if c = sep then ⟨acc.reverse⟩ :: splitOnCharAux sep rest []
      else splitOnCharAux sep rest (c :: acc)

/-- Python `s.split('\n')`. -/
def pySplitLines (s : String) : List String :=
  splitOnCharAux '\n' s.data []

/-- Python substring containment `needle in hay` for strings. -/
def pyStrContains (hay needle : String) : Bool :=
  hay.data.tails.any (fun t => needle.data.isPrefixOf t)

/-- Python `s[0:1]`. -/
def strTake1 (s : String) : String :=
  ⟨s.data.take 1⟩

/-- The stem of `os.path.splitext(name)[0]` for a plain file name
(no directory separators): cut at the last dot that has a non-dot
character somewhere before it. -/
def splitextRoot (name : String) : String :=
  let l := name.data
  let idxs := (List.range l.length).filter fun i =>
    l.getD i ' ' = '.' ∧ decide (∃ j < i, l.getD j ' ' ≠ '.')
  match idxs.getLast? with
  | some i => ⟨l.take i⟩
  | none => name

/-- Whether `binascii.a2b_hex` accepts the string: even length, hex digits
only. -/
def isHexStr (s : String) : Bool :=
  s.length % 2 == 0 &&
    s.data.all fun c => c.isDigit || ('a' ≤ c && c ≤ 'f') || ('A' ≤ c && c ≤ 'F')

/-- Lower-case one ASCII character. -/
def asciiLower (c : Char) : Char :=
  if 65 ≤ c.toNat && c.toNat ≤ 90 then Char.ofNat (c.toNat + 32) else c

/-- Lower-case a hex string (`a2b_hex` is case insensitive, so membership in
the object database is tested on the normalized form). -/
def hexLower (s : String) : String :=
  ⟨s.data.map asciiLower⟩

/-! ### UTF-8 encoding (Python `str.encode('utf8')`) -/

/-- UTF-8 encoding of one unicode scalar value. -/
def utf8Char (n : Nat) : List Nat :=
  if n < 128 then [n]
  else if n < 2048 then [192 + n / 64, 128 + n % 64]
  else if n < 65536 then [224 + n / 4096, 128 + n / 64 % 64, 128 + n % 64]
  else [240 + n / 262144, 128 + n / 4096 % 64, 128 + n / 64 % 64, 128 + n % 64]

/-- UTF-8 encoding of a string as a byte list. -/
def utf8Encode (s : String) : List Nat :=
  (s.data.map Char.toNat).flatMap utf8Char

/-- Decoder for one UTF-8 scalar (used only to prove the encoding
injective). -/
def utf8DecodeOne : List Nat → Option (Nat × List Nat)
  | [] => none
  | b0 :: rest =>
    if b0 < 128 then some (b0, rest)
    else if b0 < 224 then
      match rest with
      | b1 :: r => some ((b0 - 192) * 64 + (b1 - 128), r)
      | [] => none
    else if b0 < 240 then
      match rest with
      | b1 :: b2 :: r => some ((b0 - 224) * 4096 + (b1 - 128) * 64 + (b2 - 128), r)
      | _ => none
    else
      match rest with
      | b1 :: b2 :: b3 :: r =>
          some ((b0 - 240) * 262144 + (b1 - 128) * 4096 + (b2 - 128) * 64 + (b3 - 128), r)
      | _ => none

/-! ### SHA-1 (`hashlib.sha1`), executable over `Nat` with explicit
wraparound at `2 ^ 32` -/

/-- Truncate to a 32-bit word. -/
def w32 (n : Nat) : Nat := n % 4294967296

/-- Rotate a 32-bit word left by `s` bits. -/
def rotl32 (s n : Nat) : Nat := w32 (n * 2 ^ s + n / 2 ^ (32 - s))

/-- SHA-1 round function for round `i`. -/
def sha1F (i b c d : Nat) : Nat :=
  if i < 20 then Nat.lor (Nat.land b c) (Nat.land (4294967295 - w32 b) d)
  else if i < 40 then Nat.xor b (Nat.xor c d)
  else if i < 60 then Nat.lor (Nat.lor (Nat.land b c) (Nat.land b d)) (Nat.land c d)
  else Nat.xor b (Nat.xor c d)

/-- SHA-1 round constant for round `i`. -/
def sha1K (i : Nat) : Nat :=
  if i < 20 then 1518500249
  else if i < 40 then 1859775393
  else if i < 60 then 2400959708
  else 3395469782

/-- Message-schedule extension: prepend `count` derived words to the
reversed schedule accumulator. -/
def sha1ScheduleAux : Nat → List Nat → List Nat
  | 0, acc => acc
  | count + 1, acc =>
      sha1ScheduleAux count
        (rotl32 1 (Nat.xor (acc.getD 2 0)
          (Nat.xor (acc.getD 7 0) (Nat.xor (acc.getD 13 0) (acc.getD 15 0)))) :: acc)

/-- The 80-word message schedule of one 16-word block. -/
def sha1Schedule (block : List Nat) : List Nat :=
  (sha1ScheduleAux 64 block.reverse).reverse

/-- One compression step. -/
def sha1Step (st : Nat × Nat × Nat × Nat × Nat) (iw : Nat × Nat) :
    Nat × Nat × Nat × Nat × Nat :=
  let (a, b, c, d, e) := st
  let (i, wi) := iw
  let t := w32 (rotl32 5 a + sha1F i b c d + e + sha1K i + wi)
  (t, a, rotl32 30 b, c, d)

/-- Compress one block into the running state. -/
def sha1Block (h : Nat × Nat × Nat × Nat × Nat) (block : List Nat) :
    Nat × Nat × Nat × Nat × Nat :=
  let (h0, h1, h2, h3, h4) := h
  let (a, b, c, d, e) := (sha1Schedule block).enum.foldl sha1Step (h0, h1, h2, h3, h4)
  (w32 (h0 + a), w32 (h1 + b), w32 (h2 + c), w32 (h3 + d), w32 (h4 + e))

/-- Group a byte list into big-endian 32-bit words. -/
def bytesToWords : List Nat → List Nat
  | b0 :: b1 :: b2 :: b3 :: rest => (((b0 * 256 + b1) * 256 + b2) * 256 + b3) :: bytesToWords rest
  | _ => []

/-- Group a word list into 16-word blocks. -/
def wordsToBlocks : List Nat → List (List Nat)
  | a0 :: a1 :: a2 :: a3 :: a4 :: a5 :: a6 :: a7 :: a8 :: a9 ::
      a10 :: a11 :: a12 :: a13 :: a14 :: a15 :: rest =>
      [a0, a1, a2, a3, a4, a5, a6, a7, a8, a9, a10, a11, a12, a13, a14, a15] ::
        wordsToBlocks rest
  | _ => []

/-- SHA-1 padding: `0x80`, zeros to 56 mod 64, 8-byte big-endian bit
length. -/
def sha1Pad (msg : List Nat) : List Nat :=
  let len := msg.length
  let zeros := (120 - (len + 1) % 64) % 64
  let bits := len * 8
  msg ++ 128 :: List.replicate zeros 0 ++
    [bits / 2 ^ 56 % 256, bits / 2 ^ 48 % 256, bits / 2 ^ 40 % 256, bits / 2 ^ 32 % 256,
      bits / 2 ^ 24 % 256, bits / 2 ^ 16 % 256, bits / 2 ^ 8 % 256, bits % 256]

/-- The five 32-bit words of the SHA-1 digest of a byte string. -/
def sha1Words (msg : List Nat) : Nat × Nat × Nat × Nat × Nat :=
  (wordsToBlocks (bytesToWords (sha1Pad msg))).foldl sha1Block
    (1732584193, 4023233417, 2562383102, 271733878, 3285377520)

/-- One hex digit. -/
def hexChar (n : Nat) : Char :=
  if n < 10 then Char.ofNat (48 + n) else Char.ofNat (87 + n)

/-- Eight hex digits of a 32-bit word, big-endian. -/
def wordHex (w : Nat) : List Char :=
  [hexChar (w / 268435456 % 16), hexChar (w / 16777216 % 16), hexChar (w / 1048576 % 16),
    hexChar (w / 65536 % 16), hexChar (w / 4096 % 16), hexChar (w / 256 % 16),
    hexChar (w / 16 % 16), hexChar (w % 16)]

/-- `hashlib.sha1(msg).hexdigest()`. -/
def sha1hex (msg : List Nat) : String :=
  let (h0, h1, h2, h3, h4) := sha1Words msg
  ⟨wordHex h0 ++ wordHex h1 ++ wordHex h2 ++ wordHex h3 ++ wordHex h4⟩

/-! ### `version_to_cache_key` -/

/-- A Python argument that is either `str` or `bytes` (the source accepts
both: `str` is UTF-8 encoded, `bytes` is used as-is because `.encode`
raises `AttributeError` which the source swallows). -/
inductive PyBytesOrStr where
  | str (s : String)
  | bytes (b : List Nat)
deriving DecidableEq

/-- The byte normalization performed at the top of `version_to_cache_key`. -/
def pyEncode : PyBytesOrStr → List Nat
  | .str s => utf8Encode s
  | .bytes b => b

/-- `version_to_cache_key(plan_id, version)`: hex SHA-1 of the
concatenation of the normalized arguments. -/
def version_to_cache_key (plan_id version : PyBytesOrStr) : String :=
  sha1hex (pyEncode plan_id ++ pyEncode version)

/-! ### Data model: decoded JSON bodies, blobs, commits, the backend -/

/-- Decidable equality of `Except` values (used to evaluate the embedded
operations on concrete repositories). -/
instance exceptDecEq {ε : Type} {α : Type} [DecidableEq ε] [DecidableEq α] :
    DecidableEq (Except ε α)
  | .ok a, .ok b =>
      if h : a = b then .isTrue (by rw [h]) else .isFalse (by simp [h])
  | .ok _, .error _ => .isFalse (fun hh => Except.noConfusion hh)
  | .error _, .ok _ => .isFalse (fun hh => Except.noConfusion hh)
  | .error e, .error e' =>
      if h : e = e' then .isTrue (by rw [h]) else .isFalse (by simp [h])

/-- A JSON scalar as it occurs in a decoded record body. -/
inductive JVal where
  | s (v : String)
  | n (v : Int)
  | b (v : Bool)
deriving DecidableEq

/-- A decoded record body: a Python dict as an ordered association list
with unique keys (the result of `json.loads` on a JSON object). -/
abbrev Body := List (String × JVal)

/-- First-match lookup in an association list (Python `d[k]` / `d.get(k)`). -/
def alistLookup (l : List (String × β)) (k : String) : Option β :=
  (l.find? (·.1 == k)).map (·.2)

/-- Python dict assignment `d[k] = v`: replace in place if the key exists,
append otherwise. -/
def alistUpsert (l : List (String × β)) (k : String) (v : β) : List (String × β) :=
  if l.any (·.1 == k) then l.map fun kv => if kv.1 == k then (k, v) else kv
  else l ++ [(k, v)]

/-- Python `d.update(kvs)` for an update list with distinct keys: existing
keys are overwritten in place, new keys appended in update order. -/
def dictUpdate (d kvs : Body) : Body :=
  (d.map fun kv => (kv.1, (alistLookup kvs kv.1).getD kv.2)) ++
    kvs.filter fun kv => !(d.any (·.1 == kv.1))

/-- A tree entry: file name, backend-assigned content fingerprint, and the
result of `json.loads` on its bytes (`none` = the bytes are not valid
JSON, so decoding raises `ValueError`). -/
structure Blob where
  name : String
  hexsha : String
  json : Option Body
deriving DecidableEq

/-- A commit: snapshot tree (one level of model directories plus root
files such as the ignore control file) and metadata. `parents` holds the
parent commit hashes. -/
structure Commit where
  hexsha : String
  committedDate : Int
  dirs : List (String × List Blob)
  rootFiles : List (String × String)
  parents : List String
deriving DecidableEq

/-- `commit.tree[model_name]` resolving to a subtree's blob list
(`KeyError` = `none`). -/
def Commit.subtree (c : Commit) (model : String) : Option (List Blob) :=
  alistLookup c.dirs model

/-- `commit.tree[path]` for a `dir/file` path resolving to a blob
(`KeyError` = `none`). -/
def Commit.blobAt (c : Commit) (path : String) : Option Blob :=
  c.dirs.findSome? fun dn => dn.2.find? fun b => dn.1 ++ "/" ++ b.name == path

/-- `commit.tree[name]` for a root file, as decoded UTF-8 text
(`none` = `KeyError`, or undecodable content). -/
def Commit.rootFile (c : Commit) (name : String) : Option String :=
  alistLookup c.rootFiles name

/-- One structured entry of `git log --pretty=%H --follow --name-status --
path`: the commit hash and the tab-separated status line (status word,
path, and — for `C`/`R` statuses — the renamed-to path). The raw text
chunking of the source (three lines per commit, split on tabs) is the
backend's wire format and is modelled structurally. -/
structure LogEntry where
  hexsha : String
  status : String
  path1 : String
  path2 : Option String
deriving DecidableEq

/-- The git backend as consumed by the source: head commit,
`iter_commits` enumeration (newest first), object-database membership
(lower-case hex shas), and the two log queries. -/
structure Repo where
  headCommit : Commit
  commits : List Commit
  odb : List String
  logFollow : String → List LogEntry
  logDeletions : List (String × List String)

/-- `repo.rev_parse(hexsha)` (`none` = `BadName`). -/
def Repo.revParse (r : Repo) (h : String) : Option Commit :=
  r.commits.find? (·.hexsha == h)

/-- The exception classes raised (caught or uncaught) by the source. -/
inductive GRErr where
  | noResultFound (lastVersion : Option Body)
  | modelIgnored
  | valueError (badRecordId : Option String)
  | attributeError
  | keyError
  | badName
deriving DecidableEq

/-- `_id_from_blob`: file name without its extension. -/
def id_from_blob (b : Blob) : String :=
  splitextRoot b.name

/-- `_load_record_from_blob`: decode the blob and inject `id`, `version`,
`updated_at`. -/
def load_record_from_blob (b : Blob) (c : Commit) : Except GRErr Body :=
  match b.json with
  | none => .error (.valueError none)
  | some j =>
      .ok (dictUpdate j
        [("id", .s (id_from_blob b)), ("version", .s b.hexsha),
          ("updated_at", .n c.committedDate)])

/-- `_blob_to_cache_key`. -/
def blob_to_cache_key (b : Blob) : String :=
  version_to_cache_key (.str (id_from_blob b)) (.str b.hexsha)

/-! ### `GitRecordFactory` -/

/-- The runtime value of the factory's `_ignored` attribute: the buggy
loop in `__init__` leaves either a single string (the stripped **last**
line of the control file) or — when the file is absent or undecodable —
an empty list. -/
inductive IgnoredVal where
  | pyStr (s : String)
  | emptyList
deriving DecidableEq

/-- The `__init__` loop over `.gitrecord_ignore`: each iteration rebinds
`self._ignored` to the stripped line, so only the last line survives. -/
def factory_ignored (r : Repo) : IgnoredVal :=
  match r.headCommit.rootFile ".gitrecord_ignore" with
  | none => .emptyList
  | some text => .pyStr (pyStrip ((pySplitLines text).getLast?.getD ""))

/-- Python `model_name in self._ignored`: substring test when `_ignored`
is a string, always false for the empty list. -/
def py_in_ignored (ign : IgnoredVal) (name : String) : Bool :=
  match ign with
  | .pyStr s => pyStrContains s name
  | .emptyList => false

/-- A `GitRecordFactory`: the repo plus the `_ignored` value computed at
construction. -/
structure GitRecordFactory where
  repo : Repo
  ignored : IgnoredVal

/-- `GitRecordFactory(repo_location)`. -/
def mkGitRecordFactory (r : Repo) : GitRecordFactory :=
  ⟨r, factory_ignored r⟩

/-- The result of `find`: a single record or (for `all_versions`) a list. -/
inductive FindResult where
  | one (body : Body)
  | many (bodies : List Body)
deriving DecidableEq

namespace GitRecordFactory

/-- `_verify_model_exists`. -/
def verify_model_exists (f : GitRecordFactory) (modelname : String) : Except GRErr Unit :=
  if py_in_ignored f.ignored modelname then .error .modelIgnored
  else
    match f.repo.headCommit.subtree modelname with
    | none => .error (.noResultFound none)
    | some _ => .ok ()

/-- `GitRecordFactory.all`: every record in the model's subtree at head,
skipping records whose bytes fail to decode. -/
def all (f : GitRecordFactory) (modelname : String) : Except GRErr (List Body) :=
  match verify_model_exists f modelname with
  | .error e => .error e
  | .ok _ =>
      match f.repo.headCommit.subtree modelname with
      | none => .error .keyError
      | some blobs =>
          .ok (blobs.filterMap fun b => (load_record_from_blob b f.repo.headCommit).toOption)

/-- `GitRecordFactory.get_version`. -/
def get_version (f : GitRecordFactory) : String :=
  f.repo.headCommit.hexsha

/-- The inner blob loop of `build_object_cache` at one commit.
`cache[cache_key] = cache.get(cache_key, _load_record_from_blob(b, commit))`
evaluates the load eagerly; a decode failure is fatal (with the record id
in the error) only on the first iterated commit. -/
def build_process_blobs :
    List Blob → Commit → List (String × Body) → List (String × String) → Bool →
      Except GRErr (List (String × Body) × List (String × String))
  | [], _, cache, idmap, _ => .ok (cache, idmap)
  | b :: bs, c, cache, idmap, lastC =>
      let ck := blob_to_cache_key b
      let idmap' := if lastC then alistUpsert idmap (id_from_blob b) ck else idmap
      match load_record_from_blob b c with
      | .ok body =>
          build_process_blobs bs c (alistUpsert cache ck ((alistLookup cache ck).getD body))
            idmap' lastC
      | .error _ =>
          if lastC then .error (.valueError (some (id_from_blob b)))
          else build_process_blobs bs c cache idmap' lastC

/-- The commit loop of `build_object_cache`; a commit without the model's
subtree is skipped by `continue`, which also skips the
`last_commit = False` assignment at the end of the loop body. -/
def build_go (modelname : String) :
    List Commit → List (String × Body) → List (String × String) → Bool →
      Except GRErr (List (String × Body) × List (String × String))
  | [], cache, idmap, _ => .ok (cache, idmap)
  | c :: rest, cache, idmap, lastC =>
      match c.subtree modelname with
      | none => build_go modelname rest cache idmap lastC
      | some blobs =>
          match build_process_blobs blobs c cache idmap lastC with
          | .error e => .error e
          | .ok (cache', idmap') => build_go modelname rest cache' idmap' false

/-- `GitRecordFactory.build_object_cache`. -/
def build_object_cache (f : GitRecordFactory) (modelname : String) :
    Except GRErr (List (String × Body) × List (String × String)) :=
  match verify_model_exists f modelname with
  | .error e => .error e
  | .ok _ => build_go modelname f.repo.commits [] [] true

/-- The status-line selection of `_get_all_commits_for_path_with_paths`:
`A`/`M` keep the reported path, `C`/`R` keep the renamed-to path (a
missing second path makes the tuple unpacking raise `ValueError`), other
statuses are dropped. -/
def parse_name_status : List LogEntry → Except GRErr (List (String × String))
  | [] => .ok []
  | e :: rest =>
      let st := strTake1 e.status
      if st == "A" || st == "M" then
        match parse_name_status rest with
        | .error err => .error err
        | .ok l => .ok ((e.hexsha, e.path1) :: l)
      else if st == "C" || st == "R" then
        match e.path2 with
        | none => .error (.valueError none)
        | some p2 =>
            match parse_name_status rest with
            | .error err => .error err
            | .ok l => .ok ((e.hexsha, p2) :: l)
      else parse_name_status rest

/-- The final `rev_parse` comprehension of
`_get_all_commits_for_path_with_paths`. -/
def resolve_commits (r : Repo) : List (String × String) → Except GRErr (List (Commit × String))
  | [] => .ok []
  | (h, p) :: rest =>
      match r.revParse h with
      | none => .error .badName
      | some c =>
          match resolve_commits r rest with
          | .error e => .error e
          | .ok l => .ok ((c, p) :: l)

/-- `_get_all_commits_for_path_with_paths`. -/
def get_all_commits_for_path_with_paths (f : GitRecordFactory) (path : String) :
    Except GRErr (List (Commit × String)) :=
  match parse_name_status (f.repo.logFollow path) with
  | .error e => .error e
  | .ok pairs => resolve_commits f.repo pairs

/-- `_get_last_commit_for_deleted_path`: first (newest) deletion-log
commit whose deleted files include the path; returns that commit's first
parent. -/
def get_last_commit_for_deleted_path (f : GitRecordFactory) (path : String) :
    Except GRErr (Option Commit) :=
  match f.repo.logDeletions.find? (fun e => e.2.contains path) with
  | none => .ok none
  | some e =>
      match f.repo.revParse e.1 with
      | none => .error .badName
      | some dc =>
          match dc.parents.head? with
          | none => .error .keyError
          | some ph =>
              match f.repo.revParse ph with
              | none => .error .badName
              | some pc => .ok (some pc)

/-- `_path_for_name`. -/
def path_for_name (modelname name : String) : String :=
  modelname ++ "/" ++ name ++ ".json"

/-- The `except (KeyError, ValueError)` fallback of `find`'s shared tail:
search the deletion log for an epitaph and fail with `NoResultFound`,
carrying the pre-deletion body when it decodes. -/
def find_epitaph (f : GitRecordFactory) (path : String) : Except GRErr Body :=
  match get_last_commit_for_deleted_path f path with
  | .error e => .error e
  | .ok none => .error (.noResultFound none)
  | .ok (some lc) =>
      match lc.blobAt path with
      | none => .error .keyError
      | some b =>
          match load_record_from_blob b lc with
          | .ok body => .error (.noResultFound (some body))
          | .error _ => .error (.noResultFound none)

/-- The shared tail of `find` (lines 265-281 of the source): look the path
up in `commit` — which is `None` when the by-version loop ran zero times,
giving an `AttributeError` — and on `KeyError`/`ValueError` fall back to
the deletion epitaph. -/
def find_tail (f : GitRecordFactory) (path : String) (commitVar : Option Commit) :
    Except GRErr Body :=
  match commitVar with
  | none => .error .attributeError
  | some c =>
      match
        (match c.blobAt path with
         | none => Except.error GRErr.keyError
         | some b => load_record_from_blob b c) with
      | .ok body => .ok body
      | .error _ => find_epitaph f path

/-- The by-version search loop of `find`: returns the decoded record at
the first walked commit whose blob fingerprint matches, or — after a
fruitless loop — the final value of the `commit` loop variable, which the
source then reuses in the shared tail. -/
def find_version_scan (v : String) :
    List (Commit × String) → Option Commit → Except GRErr (Option Body × Option Commit)
  | [], last => .ok (none, last)
  | (c, cp) :: rest, _ =>
      match c.blobAt cp with
      | none => .error .keyError
      | some b =>
          if b.hexsha == v then
            match load_record_from_blob b c with
            | .ok body => .ok (some body, some c)
            | .error _ => .error (.noResultFound none)
          else find_version_scan v rest (some c)

/-- The `all_versions` loop of `find`: decode every walked snapshot,
skipping those whose bytes fail to decode; a missing tree entry raises
`KeyError` outside the `try`. -/
def collect_versions : List (Commit × String) → Except GRErr (List Body)
  | [] => .ok []
  | (c, cp) :: rest =>
      match c.blobAt cp with
      | none => .error .keyError
      | some b =>
          match load_record_from_blob b c with
          | .ok body =>
              match collect_versions rest with
              | .error e => .error e
              | .ok l => .ok (body :: l)
          | .error _ => collect_versions rest

/-- `GitRecordFactory.find`. -/
def find (f : GitRecordFactory) (modelname name : String)
    (version : Option String := none) (all_versions : Bool := false)
    (retrieve_max : Option Int := none) : Except GRErr FindResult :=
  let path := path_for_name modelname name
  match verify_model_exists f modelname with
  | .error e => .error e
  | .ok _ =>
      if pyTruthyStr version && all_versions then .error (.valueError none)
      else if pyTruthyStr version then
        let v := version.getD ""
        if !isHexStr v then .error (.valueError none)
        else if !(f.repo.odb.contains (hexLower v)) then .error (.noResultFound none)
        else
          match get_all_commits_for_path_with_paths f path with
          | .error e => .error e
          | .ok cwps =>
              match find_version_scan v cwps none with
              | .error e => .error e
              | .ok (some body, _) => .ok (.one body)
              | .ok (none, lastC) =>
                  match find_tail f path lastC with
                  | .ok body => .ok (.one body)
                  | .error e => .error e
      else if all_versions then
        match get_all_commits_for_path_with_paths f path with
        | .error e => .error e
        | .ok cwps =>
            let cwps' :=
              if pyTruthyInt retrieve_max then pySliceUpTo (retrieve_max.getD 0) cwps else cwps
            match collect_versions cwps' with
            | .error e => .error e
            | .ok recs => .ok (.many recs)
      else
        match find_tail f path (some f.repo.headCommit) with
        | .ok body => .ok (.one body)
        | .error e => .error e

end GitRecordFactory

/-! ### `GitRecord` model handles -/

/-- A model handle: the dynamically created `GitRecord` subclass bound to
a collection name; `factory = none` models the unbound state (`_factory`
absent or `None`). -/
structure GitRecord where
  modelname : String
  factory : Option GitRecordFactory

/-- `GitRecord.get_factory`. -/
def GitRecord.get_factory (m : GitRecord) : Except GRErr GitRecordFactory :=
  match m.factory with
  | some f => .ok f
  | none => .error .attributeError

/-- `GitRecord.find` classmethod: pass-through to the bound factory. -/
def GitRecord.find (m : GitRecord) (name : String) (version : Option String := none)
    (all_versions : Bool := false) (retrieve_max : Option Int := none) :
    Except GRErr FindResult :=
  match m.get_factory with
  | .error e => .error e
  | .ok f => GitRecordFactory.find f m.modelname name version all_versions retrieve_max

/-- `GitRecord.all` classmethod. -/
def GitRecord.all (m : GitRecord) : Except GRErr (List Body) :=
  match m.get_factory with
  | .error e => .error e
  | .ok f => GitRecordFactory.all f m.modelname

/-- `GitRecord.build_object_cache` classmethod. -/
def GitRecord.build_object_cache (m : GitRecord) :
    Except GRErr (List (String × Body) × List (String × String)) :=
  match m.get_factory with
  | .error e => .error e
  | .ok f => GitRecordFactory.build_object_cache f m.modelname

/-- `GitRecord.get_version` classmethod. -/
def GitRecord.get_version (m : GitRecord) : Except GRErr String :=
  match m.get_factory with
  | .error e => .error e
  | .ok f => .ok (GitRecordFactory.get_version f)

/-- `GitRecordFactory.get_model`: verify the name and return a handle
attached to this factory. -/
def GitRecordFactory.get_model (f : GitRecordFactory) (model_name : String) :
    Except GRErr GitRecord :=
  match GitRecordFactory.verify_model_exists f model_name with
  | .error e => .error e
  | .ok _ => .ok ⟨model_name, some f⟩

/-! ### Helper definitions for the cache-key analysis -/

/-- The family of cache keys obtained from the record ids `"a" * n` with a
fixed fingerprint: used to show that a 160-bit digest cannot separate all
distinct ids. -/
def c8Fam (n : Nat) : String :=
  version_to_cache_key (.str ⟨List.replicate n 'a'⟩) (.str "v")

/-- Embed a string's first 40 characters into a function out of `Fin 40`
(total, with a default): an injection on 40-character strings into a
finite type. -/
def strEncode40 (s : String) (i : Fin 40) : Fin 1114112 :=
  ⟨(s.data.getD i.val 'a').toNat, by
    have h := (s.data.getD i.val 'a').valid
    simp only [Char.toNat]
    rcases h with h | h <;> omega⟩

/-! ### Selectors used to state the claims -/

/-- Whether a commit's model subtree holds a blob with the given cache
key. -/
def commitHasKey (c : Commit) (model k : String) : Bool :=
  match c.subtree model with
  | some bs => bs.any fun b => blob_to_cache_key b == k
  | none => false

/-- The newest commit (in `iter_commits` order) whose model subtree holds
a blob with the given cache key. -/
def newestContaining (r : Repo) (model k : String) : Option Commit :=
  r.commits.find? fun c => commitHasKey c model k

/-- The first blob of a commit's model subtree with the given cache key. -/
def firstKeyBlob (c : Commit) (model k : String) : Option Blob :=
  (c.subtree model).bind fun bs => bs.find? fun b => blob_to_cache_key b == k

/-- Modelled from the spec: the commit that *introduced* an exact
`(id, version)` pair — the oldest commit whose model subtree holds a blob
with that id and fingerprint (the snapshot where that blob content first
appeared at the path).  Used to compare the spec's wording about
`updated_at` with what the code computes. -/
def specOldestContaining (r : Repo) (model idv ver : String) : Option Commit :=
  r.commits.reverse.find? fun c =>
    match c.subtree model with
    | some bs => bs.any fun b => id_from_blob b == idv && b.hexsha == ver
    | none => false

/-- Modelled from the spec: the commit timestamp of the snapshot that
introduced an exact version (see `specOldestContaining`). -/
def specIntroducedAt (r : Repo) (model idv ver : String) : Option Int :=
  (specOldestContaining r model idv ver).map (·.committedDate)

/-! ### Concrete repositories used as witnesses and counterexamples -/

/-- Record `r` at its only commit: content decodes, fingerprint `aa`. -/
def blobC1r : Blob := ⟨"r.json", "aa", some [("x", .n 1)]⟩

/-- A second record `s` whose fingerprint `bb` is in the object database
but never occurs in `r`'s history. -/
def blobC1s : Blob := ⟨"s.json", "bb", some [("y", .n 2)]⟩

/-- The single commit of the C1 scenario. -/
def commitC1 : Commit := ⟨"c1", 100, [("m", [blobC1r, blobC1s])], [], []⟩

/-- Repository for the C1 scenario: version `bb` exists in the object
database but not in the history of path `m/r.json`. -/
def repoC1 : Repo :=
  ⟨commitC1, [commitC1], ["aa", "bb"],
    fun p => if p == "m/r.json" then [⟨"c1", "A", "m/r.json", none⟩] else [], []⟩

/-- Factory over `repoC1`. -/
def fC1 : GitRecordFactory := mkGitRecordFactory repoC1

/-- The record body `find` returns for `r` in `repoC1`. -/
def bodyC1 : Body := [("x", .n 1), ("id", .s "r"), ("version", .s "aa"), ("updated_at", .n 100)]

/-- Head commit of the C2 scenario: three models exist and the ignore
control file lists `alpha` and `beta` on separate lines. -/
def commitC2 : Commit :=
  ⟨"h2", 1,
    [("alpha", [⟨"a.json", "01", some []⟩]), ("beta", [⟨"b.json", "02", some []⟩]),
      ("et", [⟨"e.json", "03", some []⟩])],
    [(".gitrecord_ignore", "alpha\nbeta")], []⟩

/-- Repository for the C2 scenario. -/
def repoC2 : Repo := ⟨commitC2, [commitC2], [], fun _ => [], []⟩

/-- Factory over `repoC2` (runs the buggy `__init__` ignore-list loop). -/
def fC2 : GitRecordFactory := mkGitRecordFactory repoC2

/-- Content X of record `r` (fingerprint `1a`), present at the first and
the third (head) commit of the C3 scenario. -/
def blobC3x : Blob := ⟨"r.json", "1a", some [("v", .n 1)]⟩

/-- Content Y of record `r` (fingerprint `2b`), present at the middle
commit of the C3 scenario. -/
def blobC3y : Blob := ⟨"r.json", "2b", some [("v", .n 2)]⟩

/-- Oldest commit of the C3 scenario (timestamp 1): introduces content X. -/
def commitC3c : Commit := ⟨"c3", 1, [("m", [blobC3x])], [], []⟩

/-- Middle commit of the C3 scenario (timestamp 2): content Y. -/
def commitC3b : Commit := ⟨"c2", 2, [("m", [blobC3y])], [], []⟩

/-- Head commit of the C3 scenario (timestamp 3): content X again. -/
def commitC3a : Commit := ⟨"c1", 3, [("m", [blobC3x])], [], []⟩

/-- Repository for the C3 scenario: content X introduced at timestamp 1,
reverted back at head (timestamp 3). -/
def repoC3 : Repo :=
  ⟨commitC3a, [commitC3a, commitC3b, commitC3c], ["1a", "2b"],
    fun p =>
      if p == "m/r.json" then
        [⟨"c1", "M", "m/r.json", none⟩, ⟨"c2", "M", "m/r.json", none⟩,
          ⟨"c3", "A", "m/r.json", none⟩]
      else [], []⟩

/-- Factory over `repoC3`. -/
def fC3 : GitRecordFactory := mkGitRecordFactory repoC3

/-- The body returned for `r` at the head of `repoC3`. -/
def bodyC3 : Body := [("v", .n 1), ("id", .s "r"), ("version", .s "1a"), ("updated_at", .n 3)]

/-- The single blob of the C4 scenario, present at both commits. -/
def blobC4 : Blob := ⟨"r.json", "aa", some [("x", .n 5)]⟩

/-- Oldest commit of the C4 scenario (timestamp 1). -/
def commitC4b : Commit := ⟨"c1", 1, [("m", [blobC4])], [], []⟩

/-- Head commit of the C4 scenario (timestamp 2); it still contains the
same blob. -/
def commitC4a : Commit := ⟨"c2", 2, [("m", [blobC4])], [], []⟩

/-- Repository for the C4 scenario: one `(id, version)` pair contained in
two commits with different timestamps. -/
def repoC4 : Repo := ⟨commitC4a, [commitC4a, commitC4b], ["aa"], fun _ => [], []⟩

/-- Factory over `repoC4`. -/
def fC4 : GitRecordFactory := mkGitRecordFactory repoC4

/-- The record body decoded at the *newest* commit containing `blobC4`. -/
def bodyC4new : Body := [("x", .n 5), ("id", .s "r"), ("version", .s "aa"), ("updated_at", .n 2)]

/-- The record body decoded at the *oldest* commit containing `blobC4`. -/
def bodyC4old : Body := [("x", .n 5), ("id", .s "r"), ("version", .s "aa"), ("updated_at", .n 1)]

/-- Head blob of the C5 scenario: valid JSON, fingerprint `aa`. -/
def blobC5good : Blob := ⟨"r.json", "aa", some [("ok", .b true)]⟩

/-- Historical blob of the C5 scenario: malformed bytes (fingerprint
`bb`). -/
def blobC5bad : Blob := ⟨"r.json", "bb", none⟩

/-- Historical commit of the C5 scenario (timestamp 1): holds the
malformed snapshot. -/
def commitC5b : Commit := ⟨"c2", 1, [("m", [blobC5bad])], [], []⟩

/-- Head commit of the C5 scenario (timestamp 2): holds the valid
snapshot. -/
def commitC5a : Commit := ⟨"c1", 2, [("m", [blobC5good])], [], []⟩

/-- Repository for the C5 scenario: malformed JSON only in history. -/
def repoC5 : Repo :=
  ⟨commitC5a, [commitC5a, commitC5b], ["aa", "bb"],
    fun p =>
      if p == "m/r.json" then
        [⟨"c1", "M", "m/r.json", none⟩, ⟨"c2", "A", "m/r.json", none⟩]
      else [], []⟩

/-- Factory over `repoC5`. -/
def fC5 : GitRecordFactory := mkGitRecordFactory repoC5

/-- The body decoded from the valid head snapshot of `repoC5`. -/
def bodyC5 : Body := [("ok", .b true), ("id", .s "r"), ("version", .s "aa"), ("updated_at", .n 2)]

/-- Head commit of the C5b scenario: the live snapshot of `r` is
malformed. -/
def commitC5badHead : Commit := ⟨"c1", 2, [("m", [⟨"r.json", "bb", none⟩])], [], []⟩

/-- Repository for the C5b scenario: malformed JSON at head. -/
def repoC5bad : Repo := ⟨commitC5badHead, [commitC5badHead], ["bb"], fun _ => [], []⟩

/-- Factory over `repoC5bad`. -/
def fC5bad : GitRecordFactory := mkGitRecordFactory repoC5bad

/-- Pre-deletion blob of record `r` in the C6 scenario (valid JSON). -/
def blobC6r : Blob := ⟨"r.json", "aa", some [("x", .n 9)]⟩

/-- Pre-deletion blob of record `q` in the C6 scenario (malformed). -/
def blobC6q : Blob := ⟨"q.json", "bb", none⟩

/-- Oldest commit of the C6 scenario (timestamp 1): both records exist. -/
def commitC6c : Commit := ⟨"c3", 1, [("m", [blobC6q, blobC6r])], [], []⟩

/-- The deletion commit of the C6 scenario (timestamp 2): both records
removed; its parent is `c3`. -/
def commitC6b : Commit := ⟨"c2", 2, [("m", [])], [], ["c3"]⟩

/-- Head commit of the C6 scenario (timestamp 3): the records are gone. -/
def commitC6a : Commit := ⟨"c1", 3, [("m", [])], [], ["c2"]⟩

/-- Repository for the C6 scenario: `r` and `q` were deleted by `c2`;
record `z` never existed. -/
def repoC6 : Repo :=
  ⟨commitC6a, [commitC6a, commitC6b, commitC6c], ["aa", "bb"], fun _ => [],
    [("c2", ["m/r.json", "m/q.json"])]⟩

/-- Factory over `repoC6`. -/
def fC6 : GitRecordFactory := mkGitRecordFactory repoC6

/-- The last-known body of `r` decoded at the parent of its deletion
commit. -/
def bodyC6 : Body := [("x", .n 9), ("id", .s "r"), ("version", .s "aa"), ("updated_at", .n 1)]

/-- Repository for the C10 scenario: the model exists at head but record
`r` has no history at all. -/
def repoC10 : Repo :=
  ⟨⟨"c1", 1, [("m", [])], [], []⟩, [⟨"c1", 1, [("m", [])], [], []⟩], [], fun _ => [], []⟩

/-- Factory over `repoC10`. -/
def fC10 : GitRecordFactory := mkGitRecordFactory repoC10

/-- An unbound model handle (`detach_from_datastore` state). -/
def unboundHandle : GitRecord := ⟨"m", none⟩

/-! ### General lemmas about the association-list dictionary model -/

theorem opt_getD_or (o : Option α) (a : α) : some (o.getD a) = o.or (some a) := by
  cases o <;> rfl

theorem opt_map_or (o o' : Option α) (f : α → β) :
    (o.or o').map f = (o.map f).or (o'.map f) := by
  cases o <;> rfl

theorem opt_some_or (a : α) (o : Option α) : (some a).or o = some a := rfl

theorem alistLookup_nil (k : String) : alistLookup ([] : List (String × β)) k = none := rfl

theorem alistLookup_cons (k' : String) (v : β) (l : List (String × β)) (k : String) :
    alistLookup ((k', v) :: l) k = if k' = k then some v else alistLookup l k := by
  simp only [alistLookup, List.find?]
  by_cases h : k' = k
  · have hb : (k' == k) = true := by simp [h]
    simp [hb, h]
  · have hb : (k' == k) = false := by simp [h]
    simp [hb, h]

theorem alistLookup_append (l1 l2 : List (String × β)) (k : String) :
    alistLookup (l1 ++ l2) k = (alistLookup l1 k).or (alistLookup l2 k) := by
  simp only [alistLookup, List.find?_append, opt_map_or]

theorem alistLookup_isSome_any (l : List (String × β)) (k : String) :
    (alistLookup l k).isSome = l.any (·.1 == k) := by
  induction l with
  | nil => rfl
  | cons kv t ih =>
      obtain ⟨k', v⟩ := kv
      rw [alistLookup_cons]
      by_cases h : k' = k
      · simp [h]
      · simp [h, ih]

theorem alistLookup_eq_none (l : List (String × β)) (k : String)
    (h : l.any (·.1 == k) = false) : alistLookup l k = none := by
  have h2 := alistLookup_isSome_any l k
  rw [h] at h2
  rcases hl : alistLookup l k with _ | w
  · rfl
  · rw [hl] at h2
    simp at h2

theorem alistLookup_map_replace (l : List (String × β)) (k k' : String) (v : β)
    (h : k ≠ k') :
    alistLookup (l.map fun kv => if kv.1 == k then (k, v) else kv) k' = alistLookup l k' := by
  induction l with
  | nil => rfl
  | cons kv t ih =>
      obtain ⟨a, b⟩ := kv
      rw [List.map_cons]
      by_cases ha : a = k
      · rw [if_pos (by simp [ha]), alistLookup_cons, alistLookup_cons,
          if_neg h, if_neg (show ¬(a = k') from ha ▸ h), ih]
      · rw [if_neg (by simp [ha]), alistLookup_cons, alistLookup_cons, ih]

theorem alistLookup_upsert_self (l : List (String × β)) (k : String) (v : β) :
    alistLookup (alistUpsert l k v) k = some v := by
  unfold alistUpsert
  by_cases h : l.any (·.1 == k)
  case pos =>
    rw [if_pos h]
    induction l with
    | nil => simp at h
    | cons kv t ih =>
        obtain ⟨a, b⟩ := kv
        rw [List.map_cons]
        by_cases ha : a = k
        · rw [if_pos (by simp [ha]), alistLookup_cons, if_pos rfl]
        · rw [if_neg (by simp [ha]), alistLookup_cons, if_neg ha]
          apply ih
          rw [List.any_cons] at h
          have hf : (a == k) = false := by simp [ha]
          rw [hf, Bool.false_or] at h
          exact h
  case neg =>
    have hfalse : l.any (·.1 == k) = false := by
      cases hb : l.any (·.1 == k)
      · rfl
      · exact absurd hb h
    rw [if_neg h, alistLookup_append,
      alistLookup_eq_none l k hfalse, Option.none_or, alistLookup_cons, if_pos rfl]

theorem alistLookup_upsert_other (l : List (String × β)) (k k' : String) (v : β)
    (h : k ≠ k') :
    alistLookup (alistUpsert l k v) k' = alistLookup l k' := by
  unfold alistUpsert
  by_cases hany : l.any (·.1 == k)
  · rw [if_pos hany, alistLookup_map_replace l k k' v h]
  · rw [if_neg hany, alistLookup_append, alistLookup_cons, if_neg h, alistLookup_nil,
      Option.or_none]

theorem alistLookup_filter_keys (l : List (String × β)) (p : String → Bool) (k : String) :
    alistLookup (l.filter fun kv => p kv.1) k =
      if p k then alistLookup l k else none := by
  induction l with
  | nil => cases hp : p k <;> simp [hp, alistLookup_nil]
  | cons kv t ih =>
      obtain ⟨a, b⟩ := kv
      rw [List.filter_cons]
      by_cases ha : a = k
      · subst ha
        cases hp : p a
        · rw [if_neg (by simp [hp]), ih, if_neg (by simp [hp]), if_neg (by simp [hp])]
        · rw [if_pos (by simp [hp]), alistLookup_cons, if_pos rfl, if_pos (by simp [hp]),
            alistLookup_cons, if_pos rfl]
      · cases hp : p a
        · rw [if_neg (by simp [hp]), ih, alistLookup_cons, if_neg ha]
        · rw [if_pos (by simp [hp]), alistLookup_cons, if_neg ha, ih, alistLookup_cons,
            if_neg ha]

theorem alistLookup_dictUpdate (d kvs : Body) (k : String) :
    alistLookup (dictUpdate d kvs) k = (alistLookup kvs k).or (alistLookup d k) := by
  unfold dictUpdate
  rw [alistLookup_append]
  have hmap : alistLookup (d.map fun kv => (kv.1, (alistLookup kvs kv.1).getD kv.2)) k =
      (alistLookup d k).map fun v => (alistLookup kvs k).getD v := by
    induction d with
    | nil => rfl
    | cons kv t ih =>
        obtain ⟨a, b⟩ := kv
        rw [List.map_cons]
        by_cases ha : a = k
        · rw [alistLookup_cons, if_pos ha, alistLookup_cons, if_pos ha]
          subst ha
          rfl
        · rw [alistLookup_cons, if_neg ha, alistLookup_cons, if_neg ha, ih]
  have hfilter : alistLookup (kvs.filter fun kv => !(d.any (·.1 == kv.1))) k =
      if d.any (·.1 == k) then none else alistLookup kvs k := by
    have h3 := alistLookup_filter_keys kvs (fun x => !(d.any (·.1 == x))) k
    rw [h3]
    cases hd : d.any (·.1 == k) <;> simp [hd]
  rw [hmap, hfilter]
  rcases hdk : alistLookup d k with _ | v
  · have hany : d.any (·.1 == k) = false := by
      have h2 := alistLookup_isSome_any d k
      rw [hdk] at h2
      exact h2.symm
    rw [hany]
    simp
  · have hany : d.any (·.1 == k) = true := by
      have h2 := alistLookup_isSome_any d k
      rw [hdk] at h2
      exact h2.symm
    rw [hany]
    simp only [if_true]
    rcases alistLookup kvs k with _ | w <;> simp

/-! ### Lemmas about `_load_record_from_blob` -/

theorem load_ok_iff (b : Blob) (c : Commit) :
    (∃ body, load_record_from_blob b c = .ok body) ↔ b.json.isSome := by
  unfold load_record_from_blob
  rcases b.json with _ | j <;> simp

theorem load_fields (b : Blob) (c : Commit) (body : Body)
    (h : load_record_from_blob b c = .ok body) :
    alistLookup body "updated_at" = some (.n c.committedDate) ∧
      alistLookup body "version" = some (.s b.hexsha) ∧
      alistLookup body "id" = some (.s (id_from_blob b)) := by
  unfold load_record_from_blob at h
  rcases hj : b.json with _ | j
  · rw [hj] at h
    exact absurd h (by simp)
  · rw [hj] at h
    simp only [Except.ok.injEq] at h
    subst h
    refine ⟨?_, ?_, ?_⟩
    · rw [alistLookup_dictUpdate]
      rfl
    · rw [alistLookup_dictUpdate]
      rfl
    · rw [alistLookup_dictUpdate]
      rfl

/-! ### Helper facts about `Except` -/

theorem exceptToOption_some (e : Except ε α) (a : α) : e.toOption = some a ↔ e = .ok a := by
  cases e <;> simp [Except.toOption]

theorem exceptToOption_none_of_error (ev : ε) (e : Except ε α) (h : e = .error ev) :
    e.toOption = none := by
  rw [h]
  rfl

/-! ### Reduction lemmas for `_verify_model_exists` and the `find` modes -/

theorem verify_ok (f : GitRecordFactory) (m : String) (bs : List Blob)
    (h1 : py_in_ignored f.ignored m = false)
    (h2 : f.repo.headCommit.subtree m = some bs) :
    GitRecordFactory.verify_model_exists f m = .ok () := by
  unfold GitRecordFactory.verify_model_exists
  rw [h1, h2]
  simp

theorem pyTruthyStr_some (v : String) (hv : v ≠ "") : pyTruthyStr (some v) = true := by
  simp [pyTruthyStr, hv]

theorem find_plain_reduce (f : GitRecordFactory) (m name : String) (bs : List Blob)
    (h1 : py_in_ignored f.ignored m = false)
    (h2 : f.repo.headCommit.subtree m = some bs) :
    GitRecordFactory.find f m name none false none =
      match GitRecordFactory.find_tail f (GitRecordFactory.path_for_name m name)
          (some f.repo.headCommit) with
      | .ok body => .ok (.one body)
      | .error e => .error e := by
  unfold GitRecordFactory.find
  rw [verify_ok f m bs h1 h2]
  simp [pyTruthyStr]

theorem find_allv_reduce (f : GitRecordFactory) (m name : String) (bs : List Blob)
    (maxv : Option Int)
    (h1 : py_in_ignored f.ignored m = false)
    (h2 : f.repo.headCommit.subtree m = some bs) :
    GitRecordFactory.find f m name none true maxv =
      match GitRecordFactory.get_all_commits_for_path_with_paths f
          (GitRecordFactory.path_for_name m name) with
      | .error e => .error e
      | .ok cwps =>
          match GitRecordFactory.collect_versions
              (if pyTruthyInt maxv then pySliceUpTo (maxv.getD 0) cwps else cwps) with
          | .error e => .error e
          | .ok recs => .ok (.many recs) := by
  unfold GitRecordFactory.find
  rw [verify_ok f m bs h1 h2]
  simp [pyTruthyStr]

theorem find_version_reduce (f : GitRecordFactory) (m name v : String) (bs : List Blob)
    (h1 : py_in_ignored f.ignored m = false)
    (h2 : f.repo.headCommit.subtree m = some bs)
    (hv : v ≠ "") (hhex : isHexStr v = true)
    (hodb : f.repo.odb.contains (hexLower v) = true) :
    GitRecordFactory.find f m name (some v) false none =
      match GitRecordFactory.get_all_commits_for_path_with_paths f
          (GitRecordFactory.path_for_name m name) with
      | .error e => .error e
      | .ok cwps =>
          match GitRecordFactory.find_version_scan v cwps none with
          | .error e => .error e
          | .ok (some body, _) => .ok (.one body)
          | .ok (none, lastC) =>
              match GitRecordFactory.find_tail f (GitRecordFactory.path_for_name m name)
                  lastC with
              | .ok body => .ok (.one body)
              | .error e => .error e := by
  unfold GitRecordFactory.find
  rw [verify_ok f m bs h1 h2]
  have hodb2 : hexLower v ∈ f.repo.odb := by simpa using hodb
  simp [pyTruthyStr_some v hv, hhex, hodb2]

theorem find_both_config (f : GitRecordFactory) (m name v : String) (bs : List Blob)
    (maxv : Option Int)
    (h1 : py_in_ignored f.ignored m = false)
    (h2 : f.repo.headCommit.subtree m = some bs)
    (hv : v ≠ "") :
    GitRecordFactory.find f m name (some v) true maxv = .error (.valueError none) := by
  unfold GitRecordFactory.find
  rw [verify_ok f m bs h1 h2]
  simp [pyTruthyStr_some v hv]

/-! ### Reduction lemmas for the shared tail and the epitaph walker -/

theorem get_last_commit_none (f : GitRecordFactory) (path : String)
    (h : f.repo.logDeletions.find? (fun e => e.2.contains path) = none) :
    GitRecordFactory.get_last_commit_for_deleted_path f path = .ok none := by
  unfold GitRecordFactory.get_last_commit_for_deleted_path
  rw [h]

theorem get_last_commit_some (f : GitRecordFactory) (path : String)
    (entry : String × List String) (dc pc : Commit) (ph : String)
    (h1 : f.repo.logDeletions.find? (fun e => e.2.contains path) = some entry)
    (h2 : f.repo.revParse entry.1 = some dc)
    (h3 : dc.parents.head? = some ph)
    (h4 : f.repo.revParse ph = some pc) :
    GitRecordFactory.get_last_commit_for_deleted_path f path = .ok (some pc) := by
  unfold GitRecordFactory.get_last_commit_for_deleted_path
  rw [h1]
  simp only [h2, h3, h4]

theorem find_tail_ok (f : GitRecordFactory) (path : String) (c : Commit) (b : Blob)
    (body : Body) (hb : c.blobAt path = some b)
    (hl : load_record_from_blob b c = .ok body) :
    GitRecordFactory.find_tail f path (some c) = .ok body := by
  unfold GitRecordFactory.find_tail
  simp only [hb, hl]

theorem find_tail_missing (f : GitRecordFactory) (path : String) (c : Commit)
    (hb : c.blobAt path = none) :
    GitRecordFactory.find_tail f path (some c) = GitRecordFactory.find_epitaph f path := by
  unfold GitRecordFactory.find_tail
  simp only [hb]

theorem epitaph_no_deletion (f : GitRecordFactory) (path : String)
    (h : f.repo.logDeletions.find? (fun e => e.2.contains path) = none) :
    GitRecordFactory.find_epitaph f path = .error (.noResultFound none) := by
  unfold GitRecordFactory.find_epitaph
  rw [get_last_commit_none f path h]

theorem epitaph_deleted_ok (f : GitRecordFactory) (path : String)
    (entry : String × List String) (dc pc : Commit) (ph : String) (b : Blob) (body : Body)
    (h1 : f.repo.logDeletions.find? (fun e => e.2.contains path) = some entry)
    (h2 : f.repo.revParse entry.1 = some dc)
    (h3 : dc.parents.head? = some ph)
    (h4 : f.repo.revParse ph = some pc)
    (h5 : pc.blobAt path = some b)
    (h6 : load_record_from_blob b pc = .ok body) :
    GitRecordFactory.find_epitaph f path = .error (.noResultFound (some body)) := by
  unfold GitRecordFactory.find_epitaph
  rw [get_last_commit_some f path entry dc pc ph h1 h2 h3 h4]
  simp only [h5, h6]

theorem epitaph_deleted_bad (f : GitRecordFactory) (path : String)
    (entry : String × List String) (dc pc : Commit) (ph : String) (b : Blob) (e : GRErr)
    (h1 : f.repo.logDeletions.find? (fun e => e.2.contains path) = some entry)
    (h2 : f.repo.revParse entry.1 = some dc)
    (h3 : dc.parents.head? = some ph)
    (h4 : f.repo.revParse ph = some pc)
    (h5 : pc.blobAt path = some b)
    (h6 : load_record_from_blob b pc = .error e) :
    GitRecordFactory.find_epitaph f path = .error (.noResultFound none) := by
  unfold GitRecordFactory.find_epitaph
  rw [get_last_commit_some f path entry dc pc ph h1 h2 h3 h4]
  simp only [h5, h6]

/-! ### Lemmas about the `all_versions` collection loop -/

theorem collect_versions_filterMap (entries : List (Commit × String))
    (h : ∀ cp ∈ entries, (cp.1.blobAt cp.2).isSome) :
    GitRecordFactory.collect_versions entries =
      .ok (entries.filterMap fun cp =>
        (cp.1.blobAt cp.2).bind fun b => (load_record_from_blob b cp.1).toOption) := by
  induction entries with
  | nil => rfl
  | cons cp rest ih =>
      obtain ⟨c, p⟩ := cp
      obtain ⟨b, hb⟩ := Option.isSome_iff_exists.mp (h (c, p) (List.mem_cons_self _ _))
      have ihh := ih fun x hx => h x (List.mem_cons_of_mem _ hx)
      simp only [GitRecordFactory.collect_versions]
      rw [hb]
      rcases hl : load_record_from_blob b c with e | body
      · rw [ihh]
        simp [List.filterMap_cons, hb, hl, Except.toOption]
      · rw [ihh]
        simp [List.filterMap_cons, hb, hl, Except.toOption]

theorem collect_map_updated (entries : List (Commit × String))
    (h : ∀ cp ∈ entries, (cp.1.blobAt cp.2).isSome) :
    ((entries.filterMap fun cp =>
        (cp.1.blobAt cp.2).bind fun b => (load_record_from_blob b cp.1).toOption).map
      fun b => alistLookup b "updated_at") =
      ((entries.filter fun cp =>
          ((cp.1.blobAt cp.2).bind fun b => (load_record_from_blob b cp.1).toOption).isSome).map
        fun cp => some (JVal.n cp.1.committedDate)) := by
  induction entries with
  | nil => rfl
  | cons cp rest ih =>
      obtain ⟨c, p⟩ := cp
      obtain ⟨b, hb⟩ := Option.isSome_iff_exists.mp (h (c, p) (List.mem_cons_self _ _))
      have ihh := ih fun x hx => h x (List.mem_cons_of_mem _ hx)
      rcases hl : load_record_from_blob b c with e | body
      · rw [List.filterMap_cons, List.filter_cons]
        have hf : (((c, p).1.blobAt (c, p).2).bind fun b =>
            (load_record_from_blob b (c, p).1).toOption) = none := by
          simp [hb, hl, Except.toOption]
        rw [hf]
        simp [ihh]
      · rw [List.filterMap_cons, List.filter_cons]
        have hf : (((c, p).1.blobAt (c, p).2).bind fun b =>
            (load_record_from_blob b (c, p).1).toOption) = some body := by
          simp [hb, hl, Except.toOption]
        rw [hf]
        have hupd := (load_fields b c body hl).1
        simp [ihh, hupd]

theorem collect_length_all (entries : List (Commit × String))
    (h : ∀ cp ∈ entries, ∃ b, cp.1.blobAt cp.2 = some b ∧ b.json.isSome) :
    (entries.filterMap fun cp =>
        (cp.1.blobAt cp.2).bind fun b => (load_record_from_blob b cp.1).toOption).length =
      entries.length := by
  induction entries with
  | nil => rfl
  | cons cp rest ih =>
      obtain ⟨c, p⟩ := cp
      obtain ⟨b, hb, hj⟩ := h (c, p) (List.mem_cons_self _ _)
      obtain ⟨body, hl⟩ := (load_ok_iff b c).mpr hj
      have ihh := ih fun x hx => h x (List.mem_cons_of_mem _ hx)
      rw [List.filterMap_cons]
      have hf : (((c, p).1.blobAt (c, p).2).bind fun b =>
          (load_record_from_blob b (c, p).1).toOption) = some body := by
        simp [hb, hl, Except.toOption]
      rw [hf, List.length_cons, ihh, List.length_cons]

/-! ### Lemmas about the by-version scan -/

theorem find_version_scan_found (v : String) (pre post : List (Commit × String))
    (c : Commit) (p : String) (blob : Blob) (acc : Option Commit)
    (hpre : ∀ cp ∈ pre, ∃ b, cp.1.blobAt cp.2 = some b ∧ (b.hexsha == v) = false)
    (hb : c.blobAt p = some blob) (hv : blob.hexsha = v) :
    GitRecordFactory.find_version_scan v (pre ++ (c, p) :: post) acc =
      match load_record_from_blob blob c with
      | .ok body => .ok (some body, some c)
      | .error _ => .error (.noResultFound none) := by
  induction pre generalizing acc with
  | nil =>
      rw [List.nil_append]
      simp only [GitRecordFactory.find_version_scan, hb]
      rw [if_pos (by simp [hv])]
  | cons cp rest ih =>
      obtain ⟨c', p'⟩ := cp
      obtain ⟨b', hb', hne⟩ := hpre (c', p') (List.mem_cons_self _ _)
      rw [List.cons_append]
      simp only [GitRecordFactory.find_version_scan, hb']
      rw [if_neg (by simp [hne])]
      exact ih (some c') (fun x hx => hpre x (List.mem_cons_of_mem _ hx))

/-! ### Lemmas about the name-status parse and commit resolution -/

theorem parse_name_status_length (log : List LogEntry) (l : List (String × String))
    (h : GitRecordFactory.parse_name_status log = .ok l) :
    l.length = (log.filter fun e =>
      strTake1 e.status == "A" || strTake1 e.status == "M" || strTake1 e.status == "C" ||
        strTake1 e.status == "R").length := by
  induction log generalizing l with
  | nil =>
      simp only [GitRecordFactory.parse_name_status] at h
      cases h
      rfl
  | cons e rest ih =>
      simp only [GitRecordFactory.parse_name_status] at h
      rw [List.filter_cons]
      by_cases ham : (strTake1 e.status == "A" || strTake1 e.status == "M") = true
      · rw [if_pos ham] at h
        rcases hp : GitRecordFactory.parse_name_status rest with er | l'
        · rw [hp] at h
          exact absurd h (by simp)
        · rw [hp] at h
          simp only [Except.ok.injEq] at h
          subst h
          have hcond : (strTake1 e.status == "A" || strTake1 e.status == "M" ||
              strTake1 e.status == "C" || strTake1 e.status == "R") = true := by
            revert ham
            cases (strTake1 e.status == "A") <;> cases (strTake1 e.status == "M") <;> simp
          rw [if_pos hcond]
          simp [ih l' hp]
      · rw [if_neg ham] at h
        by_cases hcr : (strTake1 e.status == "C" || strTake1 e.status == "R") = true
        · rw [if_pos hcr] at h
          rcases hpath : e.path2 with _ | p2
          · rw [hpath] at h
            exact absurd h (by simp)
          · rw [hpath] at h
            rcases hp : GitRecordFactory.parse_name_status rest with er | l'
            · rw [hp] at h
              exact absurd h (by simp)
            · rw [hp] at h
              simp only [Except.ok.injEq] at h
              subst h
              have hcond : (strTake1 e.status == "A" || strTake1 e.status == "M" ||
                  strTake1 e.status == "C" || strTake1 e.status == "R") = true := by
                revert ham hcr
                cases (strTake1 e.status == "A") <;> cases (strTake1 e.status == "M") <;>
                  cases (strTake1 e.status == "C") <;> cases (strTake1 e.status == "R") <;> simp
              rw [if_pos hcond]
              simp [ih l' hp]
        · rw [if_neg hcr] at h
          have hcond : (strTake1 e.status == "A" || strTake1 e.status == "M" ||
              strTake1 e.status == "C" || strTake1 e.status == "R") = false := by
            revert ham hcr
            cases (strTake1 e.status == "A") <;> cases (strTake1 e.status == "M") <;>
              cases (strTake1 e.status == "C") <;> cases (strTake1 e.status == "R") <;> simp
          rw [if_neg (by simp [hcond])]
          exact ih l h

theorem resolve_commits_length (r : Repo) (l : List (String × String))
    (cwps : List (Commit × String)) (h : GitRecordFactory.resolve_commits r l = .ok cwps) :
    cwps.length = l.length := by
  induction l generalizing cwps with
  | nil =>
      simp only [GitRecordFactory.resolve_commits] at h
      cases h
      rfl
  | cons hp_ rest ih =>
      obtain ⟨hx, px⟩ := hp_
      simp only [GitRecordFactory.resolve_commits] at h
      rcases hr : r.revParse hx with _ | c
      · rw [hr] at h
        exact absurd h (by simp)
      · rw [hr] at h
        rcases hres : GitRecordFactory.resolve_commits r rest with er | l'
        · rw [hres] at h
          exact absurd h (by simp)
        · rw [hres] at h
          simp only [Except.ok.injEq] at h
          subst h
          simp [ih l' hres]

theorem walk_length (f : GitRecordFactory) (path : String) (entries : List (Commit × String))
    (h : GitRecordFactory.get_all_commits_for_path_with_paths f path = .ok entries) :
    entries.length = ((f.repo.logFollow path).filter fun e =>
      strTake1 e.status == "A" || strTake1 e.status == "M" || strTake1 e.status == "C" ||
        strTake1 e.status == "R").length := by
  unfold GitRecordFactory.get_all_commits_for_path_with_paths at h
  rcases hp : GitRecordFactory.parse_name_status (f.repo.logFollow path) with er | pairs
  · rw [hp] at h
    exact absurd h (by simp)
  · rw [hp] at h
    rw [resolve_commits_length f.repo pairs entries h, parse_name_status_length _ pairs hp]

/-! ### Fold invariants for `build_object_cache` -/

theorem find?_eq_none_of_any_eq_false (l : List α) (p : α → Bool) (h : l.any p = false) :
    l.find? p = none := by
  induction l with
  | nil => rfl
  | cons a t ih =>
      rw [List.any_cons] at h
      have ha : p a = false := by
        cases hpa : p a
        · rfl
        · rw [hpa] at h
          simp at h
      rw [List.find?_cons, ha]
      apply ih
      rw [ha] at h
      simpa using h

theorem process_false (blobs : List Blob) (c : Commit) (cache : List (String × Body))
    (idmap : List (String × String)) (hdec : ∀ b ∈ blobs, b.json.isSome) :
    ∃ cache', GitRecordFactory.build_process_blobs blobs c cache idmap false =
        .ok (cache', idmap) ∧
      ∀ k, alistLookup cache' k = (alistLookup cache k).or
        ((blobs.find? fun b => blob_to_cache_key b == k).bind fun b =>
          (load_record_from_blob b c).toOption) := by
  induction blobs generalizing cache with
  | nil => exact ⟨cache, rfl, fun k => by simp⟩
  | cons b bs ih =>
      obtain ⟨body, hl⟩ := (load_ok_iff b c).mpr (hdec b (List.mem_cons_self _ _))
      obtain ⟨cache', hrun, hform⟩ :=
        ih (alistUpsert cache (blob_to_cache_key b)
          ((alistLookup cache (blob_to_cache_key b)).getD body))
          (fun x hx => hdec x (List.mem_cons_of_mem _ hx))
      refine ⟨cache', ?_, fun k => ?_⟩
      · simp only [GitRecordFactory.build_process_blobs, hl]
        exact hrun
      · rw [hform k, List.find?_cons]
        by_cases hk : blob_to_cache_key b = k
        · subst hk
          rw [alistLookup_upsert_self, opt_getD_or]
          simp [hl, Except.toOption, Option.or_assoc, opt_some_or]
        · rw [alistLookup_upsert_other _ _ _ _ hk]
          have hbeq : (blob_to_cache_key b == k) = false := by simp [hk]
          rw [hbeq]

theorem process_true (blobs : List Blob) (c : Commit) (cache : List (String × Body))
    (idmap : List (String × String)) (hdec : ∀ b ∈ blobs, b.json.isSome) :
    ∃ cache' idmap', GitRecordFactory.build_process_blobs blobs c cache idmap true =
        .ok (cache', idmap') ∧
      (∀ k, alistLookup cache' k = (alistLookup cache k).or
        ((blobs.find? fun b => blob_to_cache_key b == k).bind fun b =>
          (load_record_from_blob b c).toOption)) ∧
      (∀ idv, alistLookup idmap' idv =
        ((blobs.reverse.find? fun b => id_from_blob b == idv).map blob_to_cache_key).or
          (alistLookup idmap idv)) := by
  induction blobs generalizing cache idmap with
  | nil => exact ⟨cache, idmap, rfl, fun k => by simp, fun idv => by simp⟩
  | cons b bs ih =>
      obtain ⟨body, hl⟩ := (load_ok_iff b c).mpr (hdec b (List.mem_cons_self _ _))
      obtain ⟨cache', idmap', hrun, hformc, hformi⟩ :=
        ih (alistUpsert cache (blob_to_cache_key b)
            ((alistLookup cache (blob_to_cache_key b)).getD body))
          (alistUpsert idmap (id_from_blob b) (blob_to_cache_key b))
          (fun x hx => hdec x (List.mem_cons_of_mem _ hx))
      refine ⟨cache', idmap', ?_, fun k => ?_, fun idv => ?_⟩
      · simp only [GitRecordFactory.build_process_blobs, hl]
        exact hrun
      · rw [hformc k, List.find?_cons]
        by_cases hk : blob_to_cache_key b = k
        · subst hk
          rw [alistLookup_upsert_self, opt_getD_or]
          simp [hl, Except.toOption, Option.or_assoc, opt_some_or]
        · rw [alistLookup_upsert_other _ _ _ _ hk]
          have hbeq : (blob_to_cache_key b == k) = false := by simp [hk]
          rw [hbeq]
      · rw [hformi idv, List.reverse_cons, List.find?_append]
        by_cases hid : id_from_blob b = idv
        · subst hid
          rw [alistLookup_upsert_self]
          simp [List.find?_cons, List.find?_nil, opt_map_or, Option.or_assoc, opt_some_or]
        · rw [alistLookup_upsert_other _ _ _ _ hid]
          have hone : (id_from_blob b == idv) = false := by simp [hid]
          simp [List.find?_cons, List.find?_nil, hone, opt_map_or]

theorem go_false (m : String) (commits : List Commit) (cache : List (String × Body))
    (idmap : List (String × String))
    (hdec : ∀ c ∈ commits, ∀ bs, c.subtree m = some bs → ∀ b ∈ bs, b.json.isSome) :
    ∃ cache', GitRecordFactory.build_go m commits cache idmap false = .ok (cache', idmap) ∧
      ∀ k, alistLookup cache' k = (alistLookup cache k).or
        ((commits.find? fun c => commitHasKey c m k).bind fun c =>
          (firstKeyBlob c m k).bind fun b => (load_record_from_blob b c).toOption) := by
  induction commits generalizing cache with
  | nil => exact ⟨cache, rfl, fun k => by simp⟩
  | cons c cs ih =>
      rcases hsub : c.subtree m with _ | bs
      · obtain ⟨cache', hrun, hform⟩ :=
          ih cache (fun x hx => hdec x (List.mem_cons_of_mem _ hx))
        refine ⟨cache', ?_, fun k => ?_⟩
        · simp only [GitRecordFactory.build_go, hsub]
          exact hrun
        · rw [hform k, List.find?_cons]
          have hkey : commitHasKey c m k = false := by simp [commitHasKey, hsub]
          rw [hkey]
      · obtain ⟨cache1, hrun1, hform1⟩ :=
          process_false bs c cache idmap (hdec c (List.mem_cons_self _ _) bs hsub)
        obtain ⟨cache', hrun, hform⟩ :=
          ih cache1 (fun x hx => hdec x (List.mem_cons_of_mem _ hx))
        refine ⟨cache', ?_, fun k => ?_⟩
        · simp only [GitRecordFactory.build_go, hsub, hrun1]
          exact hrun
        · rw [hform k, hform1 k, Option.or_assoc, List.find?_cons]
          by_cases hkey : commitHasKey c m k = true
          · rw [hkey]
            simp only [cond_true, Option.some_bind]
            have hfkb : firstKeyBlob c m k = bs.find? (fun b => blob_to_cache_key b == k) := by
              simp [firstKeyBlob, hsub]
            rw [hfkb]
            have hany : bs.any (fun b => blob_to_cache_key b == k) = true := by
              simpa [commitHasKey, hsub] using hkey
            have hsome : (bs.find? (fun b => blob_to_cache_key b == k)).isSome := by
              rw [List.find?_isSome]
              obtain ⟨x, hx, hpx⟩ := List.any_eq_true.mp hany
              exact ⟨x, hx, hpx⟩
            obtain ⟨b0, hb0⟩ := Option.isSome_iff_exists.mp hsome
            rw [hb0]
            have hb0mem := List.mem_of_find?_eq_some hb0
            obtain ⟨body0, hl0⟩ := (load_ok_iff b0 c).mpr
              (hdec c (List.mem_cons_self _ _) bs hsub b0 hb0mem)
            simp only [Option.some_bind]
            rw [show (load_record_from_blob b0 c).toOption = some body0 from by
              simp [hl0, Except.toOption]]
            rw [opt_some_or]
          · have hkey2 : commitHasKey c m k = false := by
              cases hc : commitHasKey c m k
              · rfl
              · exact absurd hc hkey
            rw [hkey2]
            simp only [cond_false]
            have hany2 : bs.any (fun b => blob_to_cache_key b == k) = false := by
              simpa [commitHasKey, hsub] using hkey2
            rw [find?_eq_none_of_any_eq_false bs (fun b => blob_to_cache_key b == k) hany2]
            simp

theorem process_raise (pre : List Blob) (bbad : Blob) (post : List Blob) (c : Commit)
    (cache : List (String × Body)) (idmap : List (String × String))
    (hpre : ∀ x ∈ pre, x.json.isSome) (hbad : bbad.json = none) :
    GitRecordFactory.build_process_blobs (pre ++ bbad :: post) c cache idmap true =
      .error (.valueError (some (id_from_blob bbad))) := by
  induction pre generalizing cache idmap with
  | nil =>
      have hl : load_record_from_blob bbad c = .error (.valueError none) := by
        unfold load_record_from_blob
        rw [hbad]
      rw [List.nil_append]
      simp [GitRecordFactory.build_process_blobs, hl]
  | cons x xs ih =>
      obtain ⟨body, hl⟩ := (load_ok_iff x c).mpr (hpre x (List.mem_cons_self _ _))
      rw [List.cons_append]
      simp only [GitRecordFactory.build_process_blobs, hl]
      exact ih _ _ (fun y hy => hpre y (List.mem_cons_of_mem _ hy))

theorem process_ok_false (blobs : List Blob) (c : Commit) (cache : List (String × Body))
    (idmap : List (String × String)) :
    ∃ cache', GitRecordFactory.build_process_blobs blobs c cache idmap false =
      .ok (cache', idmap) := by
  induction blobs generalizing cache with
  | nil => exact ⟨cache, rfl⟩
  | cons b bs ih =>
      rcases hl : load_record_from_blob b c with e | body
      · obtain ⟨cache', hc⟩ := ih cache
        refine ⟨cache', ?_⟩
        simp only [GitRecordFactory.build_process_blobs, hl]
        simpa using hc
      · obtain ⟨cache', hc⟩ := ih (alistUpsert cache (blob_to_cache_key b)
          ((alistLookup cache (blob_to_cache_key b)).getD body))
        refine ⟨cache', ?_⟩
        simp only [GitRecordFactory.build_process_blobs, hl]
        exact hc

theorem go_ok_false (m : String) (commits : List Commit) (cache : List (String × Body))
    (idmap : List (String × String)) :
    ∃ cache', GitRecordFactory.build_go m commits cache idmap false = .ok (cache', idmap) := by
  induction commits generalizing cache with
  | nil => exact ⟨cache, rfl⟩
  | cons c cs ih =>
      rcases hsub : c.subtree m with _ | bs
      · obtain ⟨cache', hc⟩ := ih cache
        refine ⟨cache', ?_⟩
        simp only [GitRecordFactory.build_go, hsub]
        exact hc
      · obtain ⟨cache1, h1⟩ := process_ok_false bs c cache idmap
        obtain ⟨cache', hc⟩ := ih cache1
        refine ⟨cache', ?_⟩
        simp only [GitRecordFactory.build_go, hsub, h1]
        exact hc

theorem process_preserve_none : ∀ (blobs : List Blob) (c : Commit)
    (cache : List (String × Body)) (idmap : List (String × String)) (lastC : Bool)
    (cache' : List (String × Body)) (idmap' : List (String × String)) (k : String),
    GitRecordFactory.build_process_blobs blobs c cache idmap lastC = .ok (cache', idmap') →
    alistLookup cache k = none →
    (∀ b ∈ blobs, blob_to_cache_key b = k → b.json = none) →
    alistLookup cache' k = none := by
  intro blobs
  induction blobs with
  | nil =>
      intro c cache idmap lastC cache' idmap' k hrun hnone hbadk
      simp only [GitRecordFactory.build_process_blobs, Except.ok.injEq, Prod.mk.injEq] at hrun
      rw [← hrun.1]
      exact hnone
  | cons b bs ih =>
      intro c cache idmap lastC cache' idmap' k hrun hnone hbadk
      simp only [GitRecordFactory.build_process_blobs] at hrun
      rcases hl : load_record_from_blob b c with e | body
      · rw [hl] at hrun
        cases lastC
        · simp only [Bool.false_eq_true, if_neg] at hrun
          exact ih c cache _ false cache' idmap' k (by simpa using hrun) hnone
            (fun y hy hyk => hbadk y (List.mem_cons_of_mem _ hy) hyk)
        · simp at hrun
      · rw [hl] at hrun
        have hk : blob_to_cache_key b ≠ k := by
          intro heq
          have hj := hbadk b (List.mem_cons_self _ _) heq
          have hs := (load_ok_iff b c).mp ⟨body, hl⟩
          rw [hj] at hs
          simp at hs
        refine ih c _ _ lastC cache' idmap' k hrun ?_
          (fun y hy hyk => hbadk y (List.mem_cons_of_mem _ hy) hyk)
        rw [alistLookup_upsert_other _ _ _ _ hk]
        exact hnone

theorem go_preserve_none : ∀ (commits : List Commit) (m : String)
    (cache : List (String × Body)) (idmap : List (String × String)) (lastC : Bool)
    (cache' : List (String × Body)) (idmap' : List (String × String)) (k : String),
    GitRecordFactory.build_go m commits cache idmap lastC = .ok (cache', idmap') →
    alistLookup cache k = none →
    (∀ c ∈ commits, ∀ bs, c.subtree m = some bs → ∀ b ∈ bs,
      blob_to_cache_key b = k → b.json = none) →
    alistLookup cache' k = none := by
  intro commits
  induction commits with
  | nil =>
      intro m cache idmap lastC cache' idmap' k hrun hnone hbadk
      simp only [GitRecordFactory.build_go, Except.ok.injEq, Prod.mk.injEq] at hrun
      rw [← hrun.1]
      exact hnone
  | cons c cs ih =>
      intro m cache idmap lastC cache' idmap' k hrun hnone hbadk
      simp only [GitRecordFactory.build_go] at hrun
      rcases hsub : c.subtree m with _ | bs
      · simp only [hsub] at hrun
        exact ih m cache idmap lastC cache' idmap' k hrun hnone
          (fun x hx => hbadk x (List.mem_cons_of_mem _ hx))
      · simp only [hsub] at hrun
        rcases hp : GitRecordFactory.build_process_blobs bs c cache idmap lastC with e | pr
        · simp only [hp] at hrun
          exact absurd hrun (by simp)
        · obtain ⟨cache1, idmap1⟩ := pr
          simp only [hp] at hrun
          have hc1 : alistLookup cache1 k = none :=
            process_preserve_none bs c cache idmap lastC cache1 idmap1 k hp hnone
              (hbadk c (List.mem_cons_self _ _) bs hsub)
          exact ih m cache1 idmap1 false cache' idmap' k hrun hc1
            (fun x hx => hbadk x (List.mem_cons_of_mem _ hx))

/-! ### Reduction lemmas for `all` and `build_object_cache` -/

theorem all_reduce (f : GitRecordFactory) (m : String) (bs : List Blob)
    (h1 : py_in_ignored f.ignored m = false)
    (h2 : f.repo.headCommit.subtree m = some bs) :
    GitRecordFactory.all f m =
      .ok (bs.filterMap fun b => (load_record_from_blob b f.repo.headCommit).toOption) := by
  unfold GitRecordFactory.all
  rw [verify_ok f m bs h1 h2]
  simp only [h2]

theorem build_reduce (f : GitRecordFactory) (m : String) (bs : List Blob)
    (h1 : py_in_ignored f.ignored m = false)
    (h2 : f.repo.headCommit.subtree m = some bs) :
    GitRecordFactory.build_object_cache f m =
      GitRecordFactory.build_go m f.repo.commits [] [] true := by
  unfold GitRecordFactory.build_object_cache
  rw [verify_ok f m bs h1 h2]

theorem pySliceUpTo_sublist (mv : Int) (l : List α) : (pySliceUpTo mv l).Sublist l := by
  unfold pySliceUpTo
  by_cases h : 0 ≤ mv
  · rw [if_pos h]
    exact List.take_sublist _ _
  · rw [if_neg h]
    exact List.take_sublist _ _

/-! ### UTF-8 encoding is injective -/

theorem charToNat_lt (c : Char) : c.toNat < 1114112 := by
  have h := c.valid
  simp only [Char.toNat]
  rcases h with h | h <;> omega

theorem utf8Char_ne_nil (n : Nat) : utf8Char n ≠ [] := by
  unfold utf8Char
  split_ifs <;> simp

theorem utf8DecodeOne_encode (n : Nat) (hn : n < 1114112) (t : List Nat) :
    utf8DecodeOne (utf8Char n ++ t) = some (n, t) := by
  unfold utf8Char
  by_cases h1 : n < 128
  · rw [if_pos h1]
    simp only [List.cons_append, List.nil_append, utf8DecodeOne]
    rw [if_pos h1]
  · rw [if_neg h1]
    by_cases h2 : n < 2048
    · rw [if_pos h2]
      simp only [List.cons_append, List.nil_append, utf8DecodeOne]
      rw [if_neg (by omega), if_pos (by omega)]
      simp
      omega
    · rw [if_neg h2]
      by_cases h3 : n < 65536
      · rw [if_pos h3]
        simp only [List.cons_append, List.nil_append, utf8DecodeOne]
        rw [if_neg (by omega), if_neg (by omega), if_pos (by omega)]
        simp
        omega
      · rw [if_neg h3]
        simp only [List.cons_append, List.nil_append, utf8DecodeOne]
        rw [if_neg (by omega), if_neg (by omega), if_neg (by omega)]
        simp
        omega

theorem utf8_flatMap_inj : ∀ (l1 l2 : List Nat), (∀ x ∈ l1, x < 1114112) →
    (∀ x ∈ l2, x < 1114112) → l1.flatMap utf8Char = l2.flatMap utf8Char → l1 = l2 := by
  intro l1
  induction l1 with
  | nil =>
      intro l2 _ h2 heq
      cases l2 with
      | nil => rfl
      | cons b t =>
          rw [List.flatMap_nil, List.flatMap_cons] at heq
          have hne := utf8Char_ne_nil b
          cases hch : utf8Char b with
          | nil => exact absurd hch hne
          | cons x xs =>
              rw [hch] at heq
              exact absurd heq (by simp)
  | cons a t1 ih =>
      intro l2 h1 h2 heq
      cases l2 with
      | nil =>
          rw [List.flatMap_nil, List.flatMap_cons] at heq
          have hne := utf8Char_ne_nil a
          cases hch : utf8Char a with
          | nil => exact absurd hch hne
          | cons x xs =>
              rw [hch] at heq
              exact absurd heq (by simp)
      | cons b t2 =>
          rw [List.flatMap_cons, List.flatMap_cons] at heq
          have d1 := utf8DecodeOne_encode a (h1 a (List.mem_cons_self _ _))
            (t1.flatMap utf8Char)
          have d2 := utf8DecodeOne_encode b (h2 b (List.mem_cons_self _ _))
            (t2.flatMap utf8Char)
          rw [heq] at d1
          have heq2 := d2.symm.trans d1
          simp only [Option.some.injEq, Prod.mk.injEq] at heq2
          obtain ⟨hba, hts⟩ := heq2
          subst hba
          rw [ih t2 (fun x hx => h1 x (List.mem_cons_of_mem _ hx))
            (fun x hx => h2 x (List.mem_cons_of_mem _ hx)) hts.symm]

theorem utf8Encode_inj (s1 s2 : String) (h : utf8Encode s1 = utf8Encode s2) : s1 = s2 := by
  unfold utf8Encode at h
  have hvalid1 : ∀ x ∈ s1.data.map Char.toNat, x < 1114112 := by
    intro x hx
    obtain ⟨c, _, rfl⟩ := List.mem_map.mp hx
    exact charToNat_lt c
  have hvalid2 : ∀ x ∈ s2.data.map Char.toNat, x < 1114112 := by
    intro x hx
    obtain ⟨c, _, rfl⟩ := List.mem_map.mp hx
    exact charToNat_lt c
  have hlists := utf8_flatMap_inj _ _ hvalid1 hvalid2 h
  have hinj : Function.Injective Char.toNat := by
    intro a b hab
    rw [← Char.ofNat_toNat a, hab, Char.ofNat_toNat]
  have hdata : s1.data = s2.data := List.map_injective_iff.mpr hinj hlists
  cases s1
  cases s2
  exact congrArg String.mk hdata

/-! ### The digest is 40 hex characters for every input -/

theorem wordHex_length (w : Nat) : (wordHex w).length = 8 := rfl

theorem sha1hex_length (msg : List Nat) : (sha1hex msg).length = 40 := by
  rcases hw : sha1Words msg with ⟨h0, h1, h2, h3, h4⟩
  unfold sha1hex
  rw [hw]
  simp [String.length, wordHex]

theorem version_to_cache_key_length (a b : PyBytesOrStr) :
    (version_to_cache_key a b).length = 40 :=
  sha1hex_length _

theorem epitaph_never_ok (f : GitRecordFactory) (path : String) (body : Body) :
    GitRecordFactory.find_epitaph f path ≠ .ok body := by
  unfold GitRecordFactory.find_epitaph
  rcases hd : GitRecordFactory.get_last_commit_for_deleted_path f path with e | oc
  · simp
  · rcases oc with _ | lc
    · simp
    · rcases hb2 : lc.blobAt path with _ | b2
      · simp [hb2]
      · rcases hl2 : load_record_from_blob b2 lc with e2 | body2
        · simp [hb2, hl2]
        · simp [hb2, hl2]

theorem find_tail_ok_inv (f : GitRecordFactory) (path : String) (c : Commit) (body : Body)
    (h : GitRecordFactory.find_tail f path (some c) = .ok body) :
    ∃ b, c.blobAt path = some b ∧ load_record_from_blob b c = .ok body := by
  unfold GitRecordFactory.find_tail at h
  rcases hb : c.blobAt path with _ | b
  · simp only [hb] at h
    exact absurd h (epitaph_never_ok f path body)
  · simp only [hb] at h
    rcases hl : load_record_from_blob b c with e | body'
    · simp only [hl] at h
      exact absurd h (epitaph_never_ok f path body)
    · simp only [hl] at h
      simp only [Except.ok.injEq] at h
      refine ⟨b, rfl, ?_⟩
      rw [hl, h]

/-! ### Claim theorems -/

set_option maxRecDepth 200000

/-- C1: the claim says `find(model, id, version=V)` either returns a
record whose `version` equals `V` or fails `NotFound`, also for
syntactically ill-formed `V`.  The code violates this: on `repoC1`,
version `bb` exists in the object database but not in `m/r.json`'s
history, and the search loop falls through into the shared tail with the
stale `commit` loop variable, returning the record at the oldest walked
commit — whose version is `aa ≠ bb`; and the ill-formed version `zz`
raises an uncaught `binascii.Error` (a `ValueError`), not `NotFound`. -/
theorem c1_find_by_version_code_bug :
    GitRecordFactory.find fC1 "m" "r" (some "bb") false none = .ok (.one bodyC1) ∧
    alistLookup bodyC1 "version" = some (.s "aa") ∧
    "aa" ≠ "bb" ∧
    GitRecordFactory.find fC1 "m" "r" (some "zz") false none = .error (.valueError none) := by
  refine ⟨by decide, by decide, by decide, by decide⟩

/-- C2: the claim says every model name on a line of the ignore control
file is ignored and no other name is.  The `__init__` loop rebinds
`self._ignored` instead of accumulating, so only the stripped last line
survives — as a *string*, making the membership test a substring test.
On `repoC2` (control file `alpha\nbeta`): `alpha` is on a line but NOT
ignored, while `et` is on no line but IS ignored (substring of `beta`). -/
theorem c2_ignore_list_code_bug :
    factory_ignored repoC2 = .pyStr "beta" ∧
    GitRecordFactory.verify_model_exists fC2 "alpha" = .ok () ∧
    (GitRecordFactory.get_model fC2 "alpha").isOk = true ∧
    GitRecordFactory.verify_model_exists fC2 "et" = .error .modelIgnored ∧
    GitRecordFactory.verify_model_exists fC2 "beta" = .error .modelIgnored := by
  refine ⟨by decide, by decide, by rfl, by decide, by decide⟩

/-- C10: on an existing, non-ignored model, an id whose path has no
commit history at all makes `find(..., all_versions=True)` return an
empty list without failing, while plain `find` for the same id raises
`NoResultFound` (with no payload, the path never having been deleted). -/
theorem c10_no_history_theorem (f : GitRecordFactory) (m name : String) (bs : List Blob)
    (h1 : py_in_ignored f.ignored m = false)
    (h2 : f.repo.headCommit.subtree m = some bs)
    (h3 : f.repo.logFollow (GitRecordFactory.path_for_name m name) = [])
    (h4 : f.repo.headCommit.blobAt (GitRecordFactory.path_for_name m name) = none)
    (h5 : f.repo.logDeletions.find?
      (fun e => e.2.contains (GitRecordFactory.path_for_name m name)) = none) :
    GitRecordFactory.find f m name none true none = .ok (.many []) ∧
    GitRecordFactory.find f m name none false none = .error (.noResultFound none) := by
  constructor
  · rw [find_allv_reduce f m name bs none h1 h2]
    have hw : GitRecordFactory.get_all_commits_for_path_with_paths f
        (GitRecordFactory.path_for_name m name) = .ok [] := by
      unfold GitRecordFactory.get_all_commits_for_path_with_paths
      rw [h3]
      rfl
    rw [hw]
    rfl
  · rw [find_plain_reduce f m name bs h1 h2,
      find_tail_missing f (GitRecordFactory.path_for_name m name) f.repo.headCommit h4,
      epitaph_no_deletion f (GitRecordFactory.path_for_name m name) h5]

/-- C10 witness: the scenario evaluated on the concrete `repoC10`. -/
theorem c10_no_history_witness :
    GitRecordFactory.find fC10 "m" "r" none true none = .ok (.many []) ∧
    GitRecordFactory.find fC10 "m" "r" none false none = .error (.noResultFound none) :=
  c10_no_history_theorem fC10 "m" "r" [] (by decide) (by decide) (by decide) (by decide)
    (by decide)

/-- C9 counterexample: the claim says `find` with both `version` and
`all_versions` set fails with a `ValueError`-class configuration error;
but `version=""` is falsy in `if version and all_versions`, so the call
proceeds into the `all_versions` branch and succeeds. -/
theorem c9_both_set_counterexample :
    GitRecordFactory.find fC1 "m" "r" (some "") true none = .ok (.many [bodyC1]) ∧
    GitRecordFactory.find fC1 "m" "r" (some "") true none ≠ .error (.valueError none) := by
  refine ⟨by decide, by decide⟩

/-- C9 (amended): with a *nonempty* version string and `all_versions`
set, `find` fails with the `ValueError` configuration error on every
existing, non-ignored model, before consulting any history; and every
query classmethod on an unbound model handle fails with
`AttributeError`. -/
theorem c9_both_set_theorem (f : GitRecordFactory) (m name v : String) (bs : List Blob)
    (maxv : Option Int) (g : GitRecord) (name2 : String) (ver : Option String) (av : Bool)
    (rm : Option Int)
    (h1 : py_in_ignored f.ignored m = false)
    (h2 : f.repo.headCommit.subtree m = some bs)
    (hv : v ≠ "")
    (hg : g.factory = none) :
    GitRecordFactory.find f m name (some v) true maxv = .error (.valueError none) ∧
    GitRecord.find g name2 ver av rm = .error .attributeError ∧
    GitRecord.all g = .error .attributeError ∧
    GitRecord.build_object_cache g = .error .attributeError ∧
    GitRecord.get_version g = .error .attributeError := by
  have hgf : g.get_factory = .error .attributeError := by
    unfold GitRecord.get_factory
    rw [hg]
  refine ⟨find_both_config f m name v bs maxv h1 h2 hv, ?_, ?_, ?_, ?_⟩
  · unfold GitRecord.find
    rw [hgf]
  · unfold GitRecord.all
    rw [hgf]
  · unfold GitRecord.build_object_cache
    rw [hgf]
  · unfold GitRecord.get_version
    rw [hgf]

/-- C9 witness: the amended claim evaluated on `repoC1` and an unbound
handle. -/
theorem c9_both_set_witness :
    GitRecordFactory.find fC1 "m" "r" (some "bb") true none = .error (.valueError none) ∧
    GitRecord.find unboundHandle "r" none false none = .error .attributeError ∧
    GitRecord.all unboundHandle = .error .attributeError ∧
    GitRecord.build_object_cache unboundHandle = .error .attributeError ∧
    GitRecord.get_version unboundHandle = .error .attributeError :=
  c9_both_set_theorem fC1 "m" "r" "bb" [blobC1r, blobC1s] none unboundHandle "r" none false
    none (by decide) (by decide) (by decide) rfl

/-- C6: plain `find` on a path absent from the head snapshot: when the
deletion log names the path, the call fails `NoResultFound` carrying the
record decoded at the (first) parent of the newest deletion commit; when
that pre-deletion content is malformed JSON, it fails `NoResultFound`
with no payload; when no deletion commit names the path, it fails plain
`NoResultFound` with no payload.  The three cases are stated for three
record names over one factory. -/
theorem c6_deletion_epitaph_theorem (f : GitRecordFactory) (m : String) (bs : List Blob)
    (nameA nameB nameC : String)
    (entryA entryB : String × List String) (dcA pcA dcB pcB : Commit) (phA phB : String)
    (bA bB : Blob) (jA : Body)
    (h1 : py_in_ignored f.ignored m = false)
    (h2 : f.repo.headCommit.subtree m = some bs)
    (hA0 : f.repo.headCommit.blobAt (GitRecordFactory.path_for_name m nameA) = none)
    (hA1 : f.repo.logDeletions.find?
      (fun e => e.2.contains (GitRecordFactory.path_for_name m nameA)) = some entryA)
    (hA2 : f.repo.revParse entryA.1 = some dcA)
    (hA3 : dcA.parents.head? = some phA)
    (hA4 : f.repo.revParse phA = some pcA)
    (hA5 : pcA.blobAt (GitRecordFactory.path_for_name m nameA) = some bA)
    (hA6 : bA.json = some jA)
    (hB0 : f.repo.headCommit.blobAt (GitRecordFactory.path_for_name m nameB) = none)
    (hB1 : f.repo.logDeletions.find?
      (fun e => e.2.contains (GitRecordFactory.path_for_name m nameB)) = some entryB)
    (hB2 : f.repo.revParse entryB.1 = some dcB)
    (hB3 : dcB.parents.head? = some phB)
    (hB4 : f.repo.revParse phB = some pcB)
    (hB5 : pcB.blobAt (GitRecordFactory.path_for_name m nameB) = some bB)
    (hB6 : bB.json = none)
    (hC0 : f.repo.headCommit.blobAt (GitRecordFactory.path_for_name m nameC) = none)
    (hC1 : f.repo.logDeletions.find?
      (fun e => e.2.contains (GitRecordFactory.path_for_name m nameC)) = none) :
    (∃ body, load_record_from_blob bA pcA = .ok body ∧
      GitRecordFactory.find f m nameA none false none =
        .error (.noResultFound (some body))) ∧
    GitRecordFactory.find f m nameB none false none = .error (.noResultFound none) ∧
    GitRecordFactory.find f m nameC none false none = .error (.noResultFound none) := by
  refine ⟨?_, ?_, ?_⟩
  · have hload : load_record_from_blob bA pcA =
        .ok (dictUpdate jA
          [("id", .s (id_from_blob bA)), ("version", .s bA.hexsha),
            ("updated_at", .n pcA.committedDate)]) := by
      unfold load_record_from_blob
      rw [hA6]
    refine ⟨_, hload, ?_⟩
    rw [find_plain_reduce f m nameA bs h1 h2,
      find_tail_missing f (GitRecordFactory.path_for_name m nameA) f.repo.headCommit hA0,
      epitaph_deleted_ok f (GitRecordFactory.path_for_name m nameA) entryA dcA pcA phA bA _
        hA1 hA2 hA3 hA4 hA5 hload]
  · have hload : load_record_from_blob bB pcB = .error (.valueError none) := by
      unfold load_record_from_blob
      rw [hB6]
    rw [find_plain_reduce f m nameB bs h1 h2,
      find_tail_missing f (GitRecordFactory.path_for_name m nameB) f.repo.headCommit hB0,
      epitaph_deleted_bad f (GitRecordFactory.path_for_name m nameB) entryB dcB pcB phB bB _
        hB1 hB2 hB3 hB4 hB5 hload]
  · rw [find_plain_reduce f m nameC bs h1 h2,
      find_tail_missing f (GitRecordFactory.path_for_name m nameC) f.repo.headCommit hC0,
      epitaph_no_deletion f (GitRecordFactory.path_for_name m nameC) hC1]

/-- C6 witness: the three cases evaluated on `repoC6` (record `r` deleted
with a decodable last body, record `q` deleted with malformed bytes,
record `z` never existed). -/
theorem c6_deletion_epitaph_witness :
    (∃ body, load_record_from_blob blobC6r commitC6c = .ok body ∧
      GitRecordFactory.find fC6 "m" "r" none false none =
        .error (.noResultFound (some body))) ∧
    GitRecordFactory.find fC6 "m" "q" none false none = .error (.noResultFound none) ∧
    GitRecordFactory.find fC6 "m" "z" none false none = .error (.noResultFound none) :=
  c6_deletion_epitaph_theorem fC6 "m" [] "r" "q" "z" ("c2", ["m/r.json", "m/q.json"])
    ("c2", ["m/r.json", "m/q.json"]) commitC6b commitC6c commitC6b commitC6c "c3" "c3"
    blobC6r blobC6q [("x", .n 9)]
    (by decide) (by decide) (by decide) (by decide) (by decide) (by decide) (by decide)
    (by decide) (by decide) (by decide) (by decide) (by decide) (by decide) (by decide)
    (by decide) (by decide) (by decide) (by decide)

/-- C7 counterexample: the claim says that when `max` is given the
result holds at most `max` entries; but `retrieve_max=0` is falsy in
`if retrieve_max:`, so no truncation happens and the one-entry history
of `repoC5` comes back whole. -/
theorem c7_max_zero_counterexample :
    GitRecordFactory.find fC5 "m" "r" none true (some 0) = .ok (.many [bodyC5]) ∧
    ¬ ([bodyC5].length ≤ 0) := by
  refine ⟨by decide, by decide⟩

/-- C7 (amended): `find(..., all_versions=True)` returns records
newest-first in non-increasing `updated_at` order; when every walked
snapshot resolves and decodes, its length equals the number of log
entries that added, modified, changed or renamed the path (the entries
carrying content); individually malformed snapshots are skipped rather
than fatal; and a *positive* `max` truncates the result to at most `max`
entries. -/
theorem c7_all_versions_theorem (f : GitRecordFactory) (m name : String)
    (entries : List (Commit × String)) (bs : List Blob) (maxv : Option Int) (mpos : Int)
    (h1 : py_in_ignored f.ignored m = false)
    (h2 : f.repo.headCommit.subtree m = some bs)
    (h3 : GitRecordFactory.get_all_commits_for_path_with_paths f
      (GitRecordFactory.path_for_name m name) = .ok entries)
    (h4 : ∀ cp ∈ entries, (cp.1.blobAt cp.2).isSome)
    (h5 : (entries.map fun cp => cp.1.committedDate).Pairwise (· ≥ ·)) :
    (∃ l, GitRecordFactory.find f m name none true maxv = .ok (.many l) ∧
      ∃ ds : List Int, (l.map fun b => alistLookup b "updated_at") =
        ds.map (fun d => some (JVal.n d)) ∧ ds.Pairwise (· ≥ ·)) ∧
    ((∀ cp ∈ entries, ∀ blob, cp.1.blobAt cp.2 = some blob → blob.json.isSome) →
      ∃ l, GitRecordFactory.find f m name none true none = .ok (.many l) ∧
        l.length = ((f.repo.logFollow (GitRecordFactory.path_for_name m name)).filter
          fun e => strTake1 e.status == "A" || strTake1 e.status == "M" ||
            strTake1 e.status == "C" || strTake1 e.status == "R").length) ∧
    (0 < mpos →
      ∃ l, GitRecordFactory.find f m name none true (some mpos) = .ok (.many l) ∧
        l.length ≤ mpos.toNat) := by
  refine ⟨?_, ?_, ?_⟩
  · have hsub : (if pyTruthyInt maxv then pySliceUpTo (maxv.getD 0) entries
        else entries).Sublist entries := by
      by_cases hp : pyTruthyInt maxv
      · rw [if_pos hp]
        exact pySliceUpTo_sublist _ _
      · rw [if_neg hp]
    have h4s : ∀ cp ∈ (if pyTruthyInt maxv then pySliceUpTo (maxv.getD 0) entries
        else entries), (cp.1.blobAt cp.2).isSome :=
      fun cp hcp => h4 cp (hsub.subset hcp)
    have hcol := collect_versions_filterMap _ h4s
    refine ⟨(if pyTruthyInt maxv then pySliceUpTo (maxv.getD 0) entries
      else entries).filterMap (fun cp =>
        (cp.1.blobAt cp.2).bind fun b => (load_record_from_blob b cp.1).toOption), ?_, ?_⟩
    · rw [find_allv_reduce f m name bs maxv h1 h2]
      simp only [h3]
      rw [hcol]
    · refine ⟨((if pyTruthyInt maxv then pySliceUpTo (maxv.getD 0) entries
        else entries).filter fun cp =>
          ((cp.1.blobAt cp.2).bind fun b => (load_record_from_blob b cp.1).toOption).isSome).map
            (fun cp => cp.1.committedDate), ?_, ?_⟩
      · rw [collect_map_updated _ h4s, List.map_map]
        rfl
      · refine List.Pairwise.sublist ?_ h5
        exact ((List.filter_sublist _).trans hsub).map _
  · intro hdec
    have hcol := collect_versions_filterMap entries h4
    refine ⟨entries.filterMap (fun cp =>
      (cp.1.blobAt cp.2).bind fun b => (load_record_from_blob b cp.1).toOption), ?_, ?_⟩
    · rw [find_allv_reduce f m name bs none h1 h2]
      simp only [h3]
      rw [show (if pyTruthyInt none then pySliceUpTo ((none : Option Int).getD 0) entries
        else entries) = entries from rfl, hcol]
    · rw [collect_length_all entries ?_, walk_length f _ entries h3]
      intro cp hcp
      obtain ⟨blob, hblob⟩ := Option.isSome_iff_exists.mp (h4 cp hcp)
      exact ⟨blob, hblob, hdec cp hcp blob hblob⟩
  · intro hmp
    have hp : pyTruthyInt (some mpos) = true := by
      simp only [pyTruthyInt, bne_iff_ne, ne_eq]
      omega
    have hslice : pySliceUpTo mpos entries = entries.take mpos.toNat := by
      unfold pySliceUpTo
      rw [if_pos (le_of_lt hmp)]
    have h4s : ∀ cp ∈ pySliceUpTo mpos entries, (cp.1.blobAt cp.2).isSome :=
      fun cp hcp => h4 cp ((pySliceUpTo_sublist _ _).subset hcp)
    have hcol := collect_versions_filterMap _ h4s
    refine ⟨(pySliceUpTo mpos entries).filterMap (fun cp =>
      (cp.1.blobAt cp.2).bind fun b => (load_record_from_blob b cp.1).toOption), ?_, ?_⟩
    · rw [find_allv_reduce f m name bs (some mpos) h1 h2]
      simp only [h3, hp, if_true, Option.getD_some]
      rw [hcol]
    · calc (List.filterMap _ (pySliceUpTo mpos entries)).length
          ≤ (pySliceUpTo mpos entries).length := List.length_filterMap_le _ _
        _ ≤ mpos.toNat := by
            rw [hslice, List.length_take]
            omega

/-- C7 witness: the amended claim evaluated on `repoC3` (three-entry
history, all decodable), with `max = 1`. -/
theorem c7_all_versions_witness :
    (∃ l, GitRecordFactory.find fC3 "m" "r" none true none = .ok (.many l) ∧
      ∃ ds : List Int, (l.map fun b => alistLookup b "updated_at") =
        ds.map (fun d => some (JVal.n d)) ∧ ds.Pairwise (· ≥ ·)) ∧
    (∃ l, GitRecordFactory.find fC3 "m" "r" none true none = .ok (.many l) ∧
      l.length = ((fC3.repo.logFollow (GitRecordFactory.path_for_name "m" "r")).filter
        fun e => strTake1 e.status == "A" || strTake1 e.status == "M" ||
          strTake1 e.status == "C" || strTake1 e.status == "R").length) ∧
    (∃ l, GitRecordFactory.find fC3 "m" "r" none true (some 1) = .ok (.many l) ∧
      l.length ≤ (1 : Int).toNat) := by
  have h := c7_all_versions_theorem fC3 "m" "r"
    [(commitC3a, "m/r.json"), (commitC3b, "m/r.json"), (commitC3c, "m/r.json")]
    [blobC3x] none 1 (by decide) (by decide) (by decide) (by decide) (by decide)
  exact ⟨h.1, h.2.1 (by decide), h.2.2 (by decide)⟩

/-- C3 counterexample: the claim says every returned record's
`updated_at` equals the timestamp of the commit that *introduced* that
exact version.  On `repoC3`, content `1a` was introduced at timestamp 1,
reverted back at the head commit (timestamp 3): both `all` and
`find(version="1a")` return the record with `updated_at = 3 ≠ 1`. -/
theorem c3_updated_at_counterexample :
    GitRecordFactory.all fC3 "m" = .ok [bodyC3] ∧
    alistLookup bodyC3 "updated_at" = some (.n 3) ∧
    GitRecordFactory.find fC3 "m" "r" (some "1a") false none = .ok (.one bodyC3) ∧
    specIntroducedAt repoC3 "m" "r" "1a" = some 1 ∧
    (3 : Int) ≠ 1 := by
  refine ⟨by decide, by decide, by decide, by decide, by decide⟩

/-- C3 (amended): every returned record's `updated_at` equals the
timestamp of the commit at which the code decoded it: the *head* commit
for `all` and for plain `find`; the respective walked touching commit
for each `all_versions` entry; and, in the by-version mode, the newest
touching commit whose blob holds the requested fingerprint — not
necessarily the commit that introduced the content. -/
theorem c3_updated_at_theorem (f : GitRecordFactory) (m name : String) (bs : List Blob)
    (h1 : py_in_ignored f.ignored m = false)
    (h2 : f.repo.headCommit.subtree m = some bs) :
    (∀ l, GitRecordFactory.all f m = .ok l → ∀ b ∈ l,
      alistLookup b "updated_at" = some (.n f.repo.headCommit.committedDate)) ∧
    (∀ body, GitRecordFactory.find f m name none false none = .ok (.one body) →
      alistLookup body "updated_at" = some (.n f.repo.headCommit.committedDate)) ∧
    (∀ entries maxv l, GitRecordFactory.get_all_commits_for_path_with_paths f
        (GitRecordFactory.path_for_name m name) = .ok entries →
      (∀ cp ∈ entries, (cp.1.blobAt cp.2).isSome) →
      GitRecordFactory.find f m name none true maxv = .ok (.many l) →
      ∀ b ∈ l, ∃ cp ∈ entries, ∃ blob, cp.1.blobAt cp.2 = some blob ∧
        load_record_from_blob blob cp.1 = .ok b ∧
        alistLookup b "updated_at" = some (.n cp.1.committedDate)) ∧
    (∀ v entries pre c p blob post j, v ≠ "" → isHexStr v = true →
      f.repo.odb.contains (hexLower v) = true →
      GitRecordFactory.get_all_commits_for_path_with_paths f
        (GitRecordFactory.path_for_name m name) = .ok entries →
      entries = pre ++ (c, p) :: post →
      (∀ cp ∈ pre, ∃ b', cp.1.blobAt cp.2 = some b' ∧ (b'.hexsha == v) = false) →
      c.blobAt p = some blob → blob.hexsha = v → blob.json = some j →
      ∃ body, load_record_from_blob blob c = .ok body ∧
        GitRecordFactory.find f m name (some v) false none = .ok (.one body) ∧
        alistLookup body "updated_at" = some (.n c.committedDate)) := by
  refine ⟨?_, ?_, ?_, ?_⟩
  · intro l hall b hb
    rw [all_reduce f m bs h1 h2] at hall
    simp only [Except.ok.injEq] at hall
    subst hall
    obtain ⟨blob, _, hF⟩ := List.mem_filterMap.mp hb
    have hload := (exceptToOption_some _ _).mp hF
    exact (load_fields blob f.repo.headCommit b hload).1
  · intro body hfind
    rw [find_plain_reduce f m name bs h1 h2] at hfind
    rcases ht : GitRecordFactory.find_tail f (GitRecordFactory.path_for_name m name)
        (some f.repo.headCommit) with e | body'
    · simp only [ht] at hfind
      exact absurd hfind (by simp)
    · simp only [ht] at hfind
      simp only [Except.ok.injEq, FindResult.one.injEq] at hfind
      subst hfind
      obtain ⟨blob, _, hload⟩ := find_tail_ok_inv f _ _ body' ht
      exact (load_fields blob f.repo.headCommit body' hload).1
  · intro entries maxv l hwalk h4 hfind b hb
    rw [find_allv_reduce f m name bs maxv h1 h2] at hfind
    simp only [hwalk] at hfind
    have hsub : (if pyTruthyInt maxv then pySliceUpTo (maxv.getD 0) entries
        else entries).Sublist entries := by
      by_cases hp : pyTruthyInt maxv
      · rw [if_pos hp]
        exact pySliceUpTo_sublist _ _
      · rw [if_neg hp]
    have h4s : ∀ cp ∈ (if pyTruthyInt maxv then pySliceUpTo (maxv.getD 0) entries
        else entries), (cp.1.blobAt cp.2).isSome :=
      fun cp hcp => h4 cp (hsub.subset hcp)
    rw [collect_versions_filterMap _ h4s] at hfind
    simp only [Except.ok.injEq, FindResult.many.injEq] at hfind
    subst hfind
    obtain ⟨cp, hcp, hF⟩ := List.mem_filterMap.mp hb
    rcases hblob : cp.1.blobAt cp.2 with _ | blob
    · rw [hblob] at hF
      exact absurd hF (by simp)
    · rw [hblob] at hF
      simp only [Option.some_bind] at hF
      have hload := (exceptToOption_some _ _).mp hF
      exact ⟨cp, hsub.subset hcp, blob, hblob, hload,
        (load_fields blob cp.1 b hload).1⟩
  · intro v entries pre c p blob post j hv hhex hodb hwalk hsplit hpre hblob hvm hj
    have hload : load_record_from_blob blob c =
        .ok (dictUpdate j
          [("id", .s (id_from_blob blob)), ("version", .s blob.hexsha),
            ("updated_at", .n c.committedDate)]) := by
      unfold load_record_from_blob
      rw [hj]
    refine ⟨_, hload, ?_, (load_fields blob c _ hload).1⟩
    rw [find_version_reduce f m name v bs h1 h2 hv hhex hodb]
    subst hsplit
    simp only [hwalk]
    rw [find_version_scan_found v pre post c p blob none hpre hblob hvm]
    simp only [hload]

/-- C3 witness: the amended claim evaluated on `repoC3`. -/
theorem c3_updated_at_witness :
    alistLookup bodyC3 "updated_at" = some (.n 3) ∧
    (∃ body, load_record_from_blob blobC3x commitC3a = .ok body ∧
      GitRecordFactory.find fC3 "m" "r" (some "1a") false none = .ok (.one body) ∧
      alistLookup body "updated_at" = some (.n 3)) := by
  have h := c3_updated_at_theorem fC3 "m" "r" [blobC3x] (by decide) (by decide)
  refine ⟨h.1 [bodyC3] (by decide) bodyC3 (by decide), ?_⟩
  exact h.2.2.2 "1a"
    [(commitC3a, "m/r.json"), (commitC3b, "m/r.json"), (commitC3c, "m/r.json")]
    [] commitC3a "m/r.json" blobC3x [(commitC3b, "m/r.json"), (commitC3c, "m/r.json")]
    [("v", .n 1)] (by decide) (by decide) (by decide) (by decide) (by decide)
    (by decide) (by decide) (by decide) (by decide)

/-- C5: malformed JSON at the head snapshot makes `build_object_cache`
fail with a `ValueError` naming the bad record id, while `all` silently
omits the record; malformed JSON only at historical commits is
tolerated: `build_object_cache` succeeds and leaves keys whose every
occurrence is malformed out of the cache, and plain `find` and
`all_versions` still succeed on the valid entries. -/
theorem c5_malformed_json_theorem (f : GitRecordFactory) (m name : String)
    (headBlobs : List Blob) (rest : List Commit)
    (h1 : py_in_ignored f.ignored m = false)
    (h2 : f.repo.headCommit.subtree m = some headBlobs)
    (hcomm : f.repo.commits = f.repo.headCommit :: rest) :
    (∀ pre b post, headBlobs = pre ++ b :: post → (∀ x ∈ pre, x.json.isSome) →
      b.json = none → GitRecordFactory.build_object_cache f m =
        .error (.valueError (some (id_from_blob b)))) ∧
    (GitRecordFactory.all f m =
      .ok (headBlobs.filterMap fun b => (load_record_from_blob b f.repo.headCommit).toOption)) ∧
    ((∀ b ∈ headBlobs, b.json.isSome) →
      ∃ pr, GitRecordFactory.build_object_cache f m = .ok pr ∧
        ∀ k, (∀ c ∈ f.repo.commits, ∀ bs2, c.subtree m = some bs2 → ∀ b ∈ bs2,
          blob_to_cache_key b = k → b.json = none) → alistLookup pr.1 k = none) ∧
    (∀ hb j, f.repo.headCommit.blobAt (GitRecordFactory.path_for_name m name) = some hb →
      hb.json = some j → ∃ body, load_record_from_blob hb f.repo.headCommit = .ok body ∧
        GitRecordFactory.find f m name none false none = .ok (.one body)) ∧
    (∀ entries, GitRecordFactory.get_all_commits_for_path_with_paths f
        (GitRecordFactory.path_for_name m name) = .ok entries →
      (∀ cp ∈ entries, (cp.1.blobAt cp.2).isSome) →
      GitRecordFactory.find f m name none true none =
        .ok (.many (entries.filterMap fun cp =>
          (cp.1.blobAt cp.2).bind fun b => (load_record_from_blob b cp.1).toOption))) := by
  refine ⟨?_, all_reduce f m headBlobs h1 h2, ?_, ?_, ?_⟩
  · intro pre b post hsplit hpre hbad
    rw [build_reduce f m headBlobs h1 h2, hcomm]
    simp only [GitRecordFactory.build_go, h2, hsplit]
    rw [process_raise pre b post f.repo.headCommit [] [] hpre hbad]
  · intro hdec
    obtain ⟨cache1, idmap1, hrunP, _, _⟩ :=
      process_true headBlobs f.repo.headCommit [] [] hdec
    obtain ⟨cache2, hrunG⟩ := go_ok_false m rest cache1 idmap1
    have hrunAll : GitRecordFactory.build_go m f.repo.commits [] [] true =
        .ok (cache2, idmap1) := by
      rw [hcomm]
      simp only [GitRecordFactory.build_go, h2, hrunP, hrunG]
    have hrun : GitRecordFactory.build_object_cache f m = .ok (cache2, idmap1) := by
      rw [build_reduce f m headBlobs h1 h2, hrunAll]
    refine ⟨(cache2, idmap1), hrun, ?_⟩
    intro k hbadk
    exact go_preserve_none f.repo.commits m [] [] true cache2 idmap1 k hrunAll
      (alistLookup_nil k) hbadk
  · intro hb j hblob hj
    have hload : load_record_from_blob hb f.repo.headCommit =
        .ok (dictUpdate j
          [("id", .s (id_from_blob hb)), ("version", .s hb.hexsha),
            ("updated_at", .n f.repo.headCommit.committedDate)]) := by
      unfold load_record_from_blob
      rw [hj]
    refine ⟨_, hload, ?_⟩
    rw [find_plain_reduce f m name headBlobs h1 h2,
      find_tail_ok f (GitRecordFactory.path_for_name m name) f.repo.headCommit hb _ hblob
        hload]
  · intro entries hwalk h4
    rw [find_allv_reduce f m name headBlobs none h1 h2]
    simp only [hwalk]
    rw [show (if pyTruthyInt none then pySliceUpTo ((none : Option Int).getD 0) entries
      else entries) = entries from rfl, collect_versions_filterMap entries h4]

/-- C5 witness: the claim evaluated on `repoC5bad` (malformed at head)
and `repoC5` (malformed only in history). -/
theorem c5_malformed_json_witness :
    GitRecordFactory.build_object_cache fC5bad "m" = .error (.valueError (some "r")) ∧
    GitRecordFactory.all fC5bad "m" = .ok [] ∧
    (∃ pr, GitRecordFactory.build_object_cache fC5 "m" = .ok pr ∧
      alistLookup pr.1 (blob_to_cache_key blobC5bad) = none) ∧
    (∃ body, load_record_from_blob blobC5good commitC5a = .ok body ∧
      GitRecordFactory.find fC5 "m" "r" none false none = .ok (.one body)) ∧
    GitRecordFactory.find fC5 "m" "r" none true none = .ok (.many [bodyC5]) := by
  have hbad := c5_malformed_json_theorem fC5bad "m" "r" [⟨"r.json", "bb", none⟩] []
    (by decide) (by decide) (by decide)
  have hgood := c5_malformed_json_theorem fC5 "m" "r" [blobC5good] [commitC5b]
    (by decide) (by decide) (by decide)
  refine ⟨?_, hbad.2.1, ?_, ?_, ?_⟩
  · exact hbad.1 [] ⟨"r.json", "bb", none⟩ [] rfl (by simp) rfl
  · obtain ⟨pr, hpr, habs⟩ := hgood.2.2.1 (by decide)
    exact ⟨pr, hpr, habs (blob_to_cache_key blobC5bad) (by decide)⟩
  · exact hgood.2.2.2.1 blobC5good [("ok", .b true)] (by decide) (by decide)
  · exact hgood.2.2.2.2 [(commitC5a, "m/r.json"), (commitC5b, "m/r.json")] (by decide)
      (by decide)

/-- C4 counterexample: the claim says oldest write wins — the retained
value for a cache key is the record decoded at the *oldest* commit
containing that `(id, version)` pair.  On `repoC4` the pair
`("r", "aa")` is contained in the commits with timestamps 1 and 2; the
walk is newest-first and first write wins, so the retained value is the
decode at timestamp 2, not the decode at the oldest commit
(timestamp 1). -/
theorem c4_build_cache_counterexample :
    GitRecordFactory.build_object_cache fC4 "m" =
      .ok ([(blob_to_cache_key blobC4, bodyC4new)], [("r", blob_to_cache_key blobC4)]) ∧
    specOldestContaining repoC4 "m" "r" "aa" = some commitC4b ∧
    load_record_from_blob blobC4 commitC4b = .ok bodyC4old ∧
    bodyC4new ≠ bodyC4old := by
  refine ⟨by decide, by decide, by decide, by decide⟩

/-- C4 (amended): when every blob in the model's subtree across history
decodes, `build_object_cache` succeeds; the cache holds, at each key,
the record decoded at the *newest* commit containing that key (first
decoded value wins in the newest-first walk; later encounters change
nothing), and keys absent from every commit are absent from the cache;
the companion map holds one entry per record id at the head commit,
pointing at the cache key of the id's head blob (the last directory
entry winning for duplicate ids). -/
theorem c4_build_cache_theorem (f : GitRecordFactory) (m : String)
    (headBlobs : List Blob) (rest : List Commit)
    (h1 : py_in_ignored f.ignored m = false)
    (h2 : f.repo.headCommit.subtree m = some headBlobs)
    (hcomm : f.repo.commits = f.repo.headCommit :: rest)
    (hdec : ∀ c ∈ f.repo.commits, ∀ bs2, c.subtree m = some bs2 → ∀ b ∈ bs2,
      b.json.isSome) :
    ∃ cache idmap, GitRecordFactory.build_object_cache f m = .ok (cache, idmap) ∧
      (∀ k, alistLookup cache k = (newestContaining f.repo m k).bind fun c =>
        (firstKeyBlob c m k).bind fun b => (load_record_from_blob b c).toOption) ∧
      (∀ idv, alistLookup idmap idv =
        (headBlobs.reverse.find? fun b => id_from_blob b == idv).map blob_to_cache_key) := by
  have hdecHead : ∀ b ∈ headBlobs, b.json.isSome :=
    hdec f.repo.headCommit (hcomm ▸ List.mem_cons_self _ _) headBlobs h2
  obtain ⟨cache1, idmap1, hrunP, hformPc, hformPi⟩ :=
    process_true headBlobs f.repo.headCommit [] [] hdecHead
  have hdecRest : ∀ c ∈ rest, ∀ bs2, c.subtree m = some bs2 → ∀ b ∈ bs2, b.json.isSome :=
    fun c hc => hdec c (hcomm ▸ List.mem_cons_of_mem _ hc)
  obtain ⟨cache2, hrunG, hformG⟩ := go_false m rest cache1 idmap1 hdecRest
  have hrunAll : GitRecordFactory.build_go m f.repo.commits [] [] true =
      .ok (cache2, idmap1) := by
    rw [hcomm]
    simp only [GitRecordFactory.build_go, h2, hrunP, hrunG]
  refine ⟨cache2, idmap1, by rw [build_reduce f m headBlobs h1 h2, hrunAll], ?_, ?_⟩
  · intro k
    rw [hformG k, hformPc k, alistLookup_nil, Option.none_or]
    unfold newestContaining
    rw [hcomm, List.find?_cons]
    by_cases hkey : commitHasKey f.repo.headCommit m k = true
    · rw [hkey]
      simp only [cond_true, Option.some_bind]
      have hfkb : firstKeyBlob f.repo.headCommit m k =
          headBlobs.find? (fun b => blob_to_cache_key b == k) := by
        simp [firstKeyBlob, h2]
      rw [hfkb]
      have hany : headBlobs.any (fun b => blob_to_cache_key b == k) = true := by
        simpa [commitHasKey, h2] using hkey
      have hsome : (headBlobs.find? (fun b => blob_to_cache_key b == k)).isSome := by
        rw [List.find?_isSome]
        obtain ⟨x, hx, hpx⟩ := List.any_eq_true.mp hany
        exact ⟨x, hx, hpx⟩
      obtain ⟨b0, hb0⟩ := Option.isSome_iff_exists.mp hsome
      rw [hb0]
      obtain ⟨body0, hl0⟩ := (load_ok_iff b0 f.repo.headCommit).mpr
        (hdecHead b0 (List.mem_of_find?_eq_some hb0))
      simp only [Option.some_bind]
      rw [show (load_record_from_blob b0 f.repo.headCommit).toOption = some body0 from by
        simp [hl0, Except.toOption]]
      rw [opt_some_or]
    · have hkey2 : commitHasKey f.repo.headCommit m k = false := by
        cases hc : commitHasKey f.repo.headCommit m k
        · rfl
        · exact absurd hc hkey
      rw [hkey2]
      simp only [cond_false]
      have hany2 : headBlobs.any (fun b => blob_to_cache_key b == k) = false := by
        simpa [commitHasKey, h2] using hkey2
      rw [find?_eq_none_of_any_eq_false headBlobs _ hany2]
      simp
  · intro idv
    rw [hformPi idv, alistLookup_nil, Option.or_none]

/-- C4 witness: the amended claim evaluated on `repoC4`. -/
theorem c4_build_cache_witness :
    ∃ cache idmap, GitRecordFactory.build_object_cache fC4 "m" = .ok (cache, idmap) ∧
      (∀ k, alistLookup cache k = (newestContaining fC4.repo "m" k).bind fun c =>
        (firstKeyBlob c "m" k).bind fun b => (load_record_from_blob b c).toOption) ∧
      (∀ idv, alistLookup idmap idv =
        ([blobC4].reverse.find? fun b => id_from_blob b == idv).map blob_to_cache_key) :=
  c4_build_cache_theorem fC4 "m" [blobC4] [commitC4b] (by decide) (by decide) (by decide)
    (by decide)

/-- C8 counterexample: the claim's consequent — distinct ids always give
distinct cache keys — cannot hold unconditionally: `version_to_cache_key`
always returns a 40-character string, of which there are only finitely
many, while there are infinitely many distinct ids, so by pigeonhole two
distinct ids share a key for a fixed fingerprint. -/
theorem c8_cache_key_counterexample :
    ¬ (∀ (id1 id2 v : PyBytesOrStr), id1 ≠ id2 →
        version_to_cache_key id1 v ≠ version_to_cache_key id2 v) := by
  intro hall
  obtain ⟨n1, n2, hne, heq⟩ :=
    Finite.exists_ne_map_eq_of_infinite (fun n : ℕ => strEncode40 (c8Fam n))
  have hlen1 : (c8Fam n1).data.length = 40 := version_to_cache_key_length _ _
  have hlen2 : (c8Fam n2).data.length = 40 := version_to_cache_key_length _ _
  have hkey : c8Fam n1 = c8Fam n2 := by
    have hdata : (c8Fam n1).data = (c8Fam n2).data := by
      apply List.ext_getElem (hlen1.trans hlen2.symm)
      intro i hi1 hi2
      have hfun := congrFun heq ⟨i, by omega⟩
      have hnat : ((c8Fam n1).data.getD i 'a').toNat =
          ((c8Fam n2).data.getD i 'a').toNat := by
        simpa [strEncode40] using congrArg Fin.val hfun
      have hchar : (c8Fam n1).data.getD i 'a' = (c8Fam n2).data.getD i 'a' := by
        rw [← Char.ofNat_toNat ((c8Fam n1).data.getD i 'a'), hnat, Char.ofNat_toNat]
      rwa [List.getD_eq_getElem _ _ hi1, List.getD_eq_getElem _ _ hi2] at hchar
    cases hc1 : c8Fam n1
    cases hc2 : c8Fam n2
    rw [hc1, hc2] at hdata
    exact congrArg String.mk hdata
  have hid : (PyBytesOrStr.str ⟨List.replicate n1 'a'⟩) ≠
      (PyBytesOrStr.str ⟨List.replicate n2 'a'⟩) := by
    intro hc
    apply hne
    have hstr : (⟨List.replicate n1 'a'⟩ : String) = ⟨List.replicate n2 'a'⟩ := by
      injection hc
    have hlist : List.replicate n1 'a' = List.replicate n2 'a' := by
      injection hstr
    have := congrArg List.length hlist
    simpa [List.length_replicate] using this
  exact hall _ _ (.str "v") hid hkey

/-- C8 (amended): `version_to_cache_key` is the pure function taking the
hex SHA-1 digest of the concatenation of the normalized byte encodings
of its arguments; a `str` argument and its UTF-8 byte encoding yield the
same key; distinct ids (as normalized bytes) yield distinct hash
*inputs* for a fixed fingerprint, and distinct strings yield distinct
normalized encodings; on the concrete pair of ids from the test suite
the keys themselves differ. -/
theorem c8_cache_key_theorem (id1 id2 v : PyBytesOrStr) (s1 s2 : String)
    (h12 : pyEncode id1 ≠ pyEncode id2) (hs : s1 ≠ s2) :
    (∀ a b : PyBytesOrStr,
      version_to_cache_key a b = sha1hex (pyEncode a ++ pyEncode b)) ∧
    (∀ (s : String) (b : PyBytesOrStr),
      version_to_cache_key (.str s) b =
        version_to_cache_key (.bytes (utf8Encode s)) b ∧
      version_to_cache_key b (.str s) =
        version_to_cache_key b (.bytes (utf8Encode s))) ∧
    pyEncode id1 ++ pyEncode v ≠ pyEncode id2 ++ pyEncode v ∧
    utf8Encode s1 ≠ utf8Encode s2 ∧
    version_to_cache_key (.str "identical1") (.str "aa") ≠
      version_to_cache_key (.str "identical2") (.str "aa") := by
  refine ⟨fun a b => rfl, fun s b => ⟨rfl, rfl⟩, ?_, ?_, by decide⟩
  · intro hc
    exact h12 (List.append_cancel_right hc)
  · intro hc
    exact hs (utf8Encode_inj s1 s2 hc)

/-- C8 witness: the amended claim evaluated on the concrete ids `"x"`,
`"y"` with fingerprint `"aa"`. -/
theorem c8_cache_key_witness :
    (pyEncode (.str "x") ≠ pyEncode (.str "y") ∧ "x" ≠ "y") ∧
    ((∀ a b : PyBytesOrStr,
        version_to_cache_key a b = sha1hex (pyEncode a ++ pyEncode b)) ∧
      (∀ (s : String) (b : PyBytesOrStr),
        version_to_cache_key (.str s) b =
          version_to_cache_key (.bytes (utf8Encode s)) b ∧
        version_to_cache_key b (.str s) =
          version_to_cache_key b (.bytes (utf8Encode s))) ∧
      pyEncode (.str "x") ++ pyEncode (.str "aa") ≠
        pyEncode (.str "y") ++ pyEncode (.str "aa") ∧
      utf8Encode "x" ≠ utf8Encode "y" ∧
      version_to_cache_key (.str "identical1") (.str "aa") ≠
        version_to_cache_key (.str "identical2") (.str "aa")) :=
  ⟨⟨by decide, by decide⟩,
    c8_cache_key_theorem (.str "x") (.str "y") (.str "aa") "x" "y" (by decide)
      (by decide)⟩
